import Mathlib

/-
Verification of the n8n workflow visualizer
(`lib/n8n_utils/visualization/visualizer.py`).

The Python module parses a workflow document (a JSON value) into a
`networkx.DiGraph` plus a position dictionary, and then renders it with
matplotlib.  This file shallowly embeds the data model and the pure
data-flow of that module:

  * `JSON` models Python values produced by `json.load`
    (numbers are modelled as integers; the claims only involve integers);
  * `jGet`, `jGetD`, `hasKey`, `jLen`, `jIndex`, `jNeg`, `jIter`, `jItems`
    model the Python dict/list/string primitives the module uses,
    returning `Except` where Python would raise (KeyError/TypeError/...);
  * `DiGraph` models the slice of `networkx.DiGraph` the module exercises:
    insertion-ordered vertices with attribute records, at most one directed
    edge per (source, target) pair, `add_edge` implicitly creating missing
    endpoints with no attributes and overwriting the attributes of an
    existing edge;
  * `parse_workflow`, `draw`, `visualize_workflow`,
    `visualize_workflow_file` and `main` embed the corresponding Python
    functions; file system and matplotlib effects are abstracted into the
    returned data (`DrawData`, `VisOutcome`, `CliResult`).
-/

set_option autoImplicit false

/-- Model of a Python value obtained from `json.load`: JSON numbers are
modelled as integers (all numbers appearing in the claims are integers),
objects as insertion-ordered association lists with the keys of a Python
dict (unique in any value produced by `json.load`). -/
inductive JSON where
  | null
  | bool (b : Bool)
  | num (n : Int)
  | str (s : String)
  | arr (elems : List JSON)
  | obj (entries : List (String × JSON))

mutual

/-- Decidable equality for `JSON` (written by hand: the deriving handler
does not support nested inductives). -/
def JSON.decEq : (a b : JSON) → Decidable (a = b)
  | .null, .null => isTrue rfl
  | .null, .bool _ => isFalse (fun h => nomatch h)
  | .null, .num _ => isFalse (fun h => nomatch h)
  | .null, .str _ => isFalse (fun h => nomatch h)
  | .null, .arr _ => isFalse (fun h => nomatch h)
  | .null, .obj _ => isFalse (fun h => nomatch h)
  | .bool _, .null => isFalse (fun h => nomatch h)
  | .bool x, .bool y =>
    if h : x = y then isTrue (by rw [h])
    else isFalse (fun c => h (JSON.bool.inj c))
  | .bool _, .num _ => isFalse (fun h => nomatch h)
  | .bool _, .str _ => isFalse (fun h => nomatch h)
  | .bool _, .arr _ => isFalse (fun h => nomatch h)
  | .bool _, .obj _ => isFalse (fun h => nomatch h)
  | .num _, .null => isFalse (fun h => nomatch h)
  | .num _, .bool _ => isFalse (fun h => nomatch h)
  | .num x, .num y =>
    if h : x = y then isTrue (by rw [h])
    else isFalse (fun c => h (JSON.num.inj c))
  | .num _, .str _ => isFalse (fun h => nomatch h)
  | .num _, .arr _ => isFalse (fun h => nomatch h)
  | .num _, .obj _ => isFalse (fun h => nomatch h)
  | .str _, .null => isFalse (fun h => nomatch h)
  | .str _, .bool _ => isFalse (fun h => nomatch h)
  | .str _, .num _ => isFalse (fun h => nomatch h)
  | .str x, .str y =>
    if h : x = y then isTrue (by rw [h])
    else isFalse (fun c => h (JSON.str.inj c))
  | .str _, .arr _ => isFalse (fun h => nomatch h)
  | .str _, .obj _ => isFalse (fun h => nomatch h)
  | .arr _, .null => isFalse (fun h => nomatch h)
  | .arr _, .bool _ => isFalse (fun h => nomatch h)
  | .arr _, .num _ => isFalse (fun h => nomatch h)
  | .arr _, .str _ => isFalse (fun h => nomatch h)
  | .arr xs, .arr ys =>
    match JSON.decEqList xs ys with
    | isTrue h => isTrue (by rw [h])
    | isFalse h => isFalse (fun c => h (JSON.arr.inj c))
  | .arr _, .obj _ => isFalse (fun h => nomatch h)
  | .obj _, .null => isFalse (fun h => nomatch h)
  | .obj _, .bool _ => isFalse (fun h => nomatch h)
  | .obj _, .num _ => isFalse (fun h => nomatch h)
  | .obj _, .str _ => isFalse (fun h => nomatch h)
  | .obj _, .arr _ => isFalse (fun h => nomatch h)
  | .obj xs, .obj ys =>
    match JSON.decEqPairs xs ys with
    | isTrue h => isTrue (by rw [h])
    | isFalse h => isFalse (fun c => h (JSON.obj.inj c))

/-- Decidable equality for lists of JSON values. -/
def JSON.decEqList : (xs ys : List JSON) → Decidable (xs = ys)
  | [], [] => isTrue rfl
  | [], _ :: _ => isFalse (fun h => nomatch h)
  | _ :: _, [] => isFalse (fun h => nomatch h)
  | x :: xs, y :: ys =>
    match JSON.decEq x y, JSON.decEqList xs ys with
    | isTrue h1, isTrue h2 => isTrue (by rw [h1, h2])
    | isFalse h1, _ => isFalse (fun c => h1 (List.cons.inj c).1)
    | _, isFalse h2 => isFalse (fun c => h2 (List.cons.inj c).2)

/-- Decidable equality for JSON object entry lists. -/
def JSON.decEqPairs : (xs ys : List (String × JSON)) → Decidable (xs = ys)
  | [], [] => isTrue rfl
  | [], _ :: _ => isFalse (fun h => nomatch h)
  | _ :: _, [] => isFalse (fun h => nomatch h)
  | (k1, v1) :: xs, (k2, v2) :: ys =>
    if hk : k1 = k2 then
      match JSON.decEq v1 v2, JSON.decEqPairs xs ys with
      | isTrue hv, isTrue ht => isTrue (by rw [hk, hv, ht])
      | isFalse hv, _ =>
        isFalse (fun c => hv (congrArg Prod.snd (List.cons.inj c).1))
      | _, isFalse ht => isFalse (fun c => ht (List.cons.inj c).2)
    else isFalse (fun c => hk (congrArg Prod.fst (List.cons.inj c).1))

end

instance : DecidableEq JSON := JSON.decEq

/-- Association-list lookup on the entries of a Python dict
(`d[k]` / `d.get(k)` key search; keys of a loaded dict are unique). -/
def entriesFind : List (String × JSON) → String → Option JSON
  | [], _ => none
  | (k, v) :: rest, key => if k = key then some v else entriesFind rest key

/-- Python `d[k]` on a JSON value: a KeyError on a missing key of a dict,
a TypeError on any non-dict value (in particular on a list, as in
`connection['node']` when `connection` is a list). -/
def jGet (d : JSON) (k : String) : Except String JSON :=
  match d with
  | .obj entries =>
    match entriesFind entries k with
    | some v => .ok v
    | none => .error ("KeyError: " ++ k)
  | _ => .error ("TypeError: value does not support string indexing: " ++ k)

/-- Python `d.get(k, default)`: only dicts have `.get`
(an AttributeError otherwise). -/
def jGetD (d : JSON) (k : String) (dflt : JSON) : Except String JSON :=
  match d with
  | .obj entries =>
    match entriesFind entries k with
    | some v => .ok v
    | none => .ok dflt
  | _ => .error "AttributeError: get"

/-- Python `k in d` for a dict `d`.  The module only evaluates this on
values already known to be dicts (after a successful `node['id']`), so the
non-dict case is not observable; it is modelled as `false`. -/
def hasKey (d : JSON) (k : String) : Bool :=
  match d with
  | .obj entries => (entriesFind entries k).isSome
  | _ => false

/-- Python `len(v)`: defined for lists, strings and dicts, a TypeError on
other values. -/
def jLen (d : JSON) : Except String Nat :=
  match d with
  | .arr elems => .ok elems.length
  | .str s => .ok s.length
  | .obj entries => .ok entries.length
  | _ => .error "TypeError: object has no len"

/-- Python `v[i]` for a natural index: list indexing (IndexError when out
of range), string indexing (a one-character string), a KeyError on a dict
(its keys are strings), a TypeError otherwise. -/
def jIndex (d : JSON) (i : Nat) : Except String JSON :=
  match d with
  | .arr elems =>
    match elems.get? i with
    | some v => .ok v
    | none => .error "IndexError: list index out of range"
  | .str s =>
    match s.data.get? i with
    | some c => .ok (.str (String.mk [c]))
    | none => .error "IndexError: string index out of range"
  | .obj _ => .error "KeyError: integer key"
  | _ => .error "TypeError: value is not subscriptable"

/-- Python unary minus, as applied in `-node['position'][1]`: negates a
number (and a boolean, which Python treats as 0/1), a TypeError on
anything else. -/
def jNeg (d : JSON) : Except String JSON :=
  match d with
  | .num n => .ok (.num (-n))
  | .bool b => .ok (.num (if b then -1 else 0))
  | _ => .error "TypeError: bad operand type for unary minus"

/-- Python iteration `for x in v`: the elements of a list, the characters
of a string (as one-character strings), the keys of a dict, a TypeError on
other values. -/
def jIter (d : JSON) : Except String (List JSON) :=
  match d with
  | .arr elems => .ok elems
  | .str s => .ok (s.data.map (fun c => .str (String.mk [c])))
  | .obj entries => .ok (entries.map (fun p => .str p.1))
  | _ => .error "TypeError: value is not iterable"

/-- Python `d.items()`: only dicts have `.items`
(an AttributeError otherwise). -/
def jItems (d : JSON) : Except String (List (String × JSON)) :=
  match d with
  | .obj entries => .ok entries
  | _ => .error "AttributeError: items"

/-- Characters after the last occurrence of `sep` (the whole list when
`sep` does not occur).  Structural recursion so that the kernel can
evaluate it on literals. -/
def afterLastSep (sep : Char) : List Char → List Char → List Char
  | [], acc => acc.reverse
  | c :: cs, acc =>
    if c = sep then afterLastSep sep cs [] else afterLastSep sep cs (c :: acc)

/-- Python `s.split('.')[-1]`: the last dot-separated segment of a string
(`str.split` with a separator never returns an empty list, so `[-1]` is
total). -/
def lastSegment (s : String) : String :=
  String.mk (afterLastSep '.' s.data [])

/-- Association-list lookup keyed by JSON values (Python dict reads such
as `self.pos[node_id]`; `networkx` node/edge attribute lookups). -/
def alFind {β : Type} : List (JSON × β) → JSON → Option β
  | [], _ => none
  | (k, v) :: rest, key => if k = key then some v else alFind rest key

/-- Association-list update-or-append keyed by JSON values (Python dict
assignment `self.pos[node_id] = ...`; `networkx` keeps the original
insertion position of an existing key and overwrites its value). -/
def alSet {β : Type} (key : JSON) (val : β) : List (JSON × β) → List (JSON × β)
  | [] => [(key, val)]
  | (k, v) :: rest =>
    if k = key then (k, val) :: rest else (k, v) :: alSet key val rest

/-- Vertex attributes set by `parse_workflow` via `self.graph.add_node`:
`label` (the node name, an arbitrary JSON value when given explicitly),
`type` (a string: `node_type.split('.')` has already required this), and
the carried-through `parameters` mapping. -/
structure NodeAttrs where
  label : JSON
  type : String
  parameters : JSON
deriving DecidableEq

/-- A directed `networkx` edge with its `connection_type` attribute.  The
source is always a string key of the `connections` dict; the target is
whatever `connection['node']` returned. -/
structure Edge where
  source : JSON
  target : JSON
  connection_type : String
deriving DecidableEq

/-- `networkx.DiGraph.add_edge` semantics on the edge list: at most one
directed edge per (source, target) pair; re-adding an existing pair
overwrites its attributes in place, a new pair is appended. -/
def addEdgeList (u v : JSON) (ct : String) : List Edge → List Edge
  | [] => [⟨u, v, ct⟩]
  | e :: rest =>
    if e.source = u ∧ e.target = v then ⟨e.source, e.target, ct⟩ :: rest
    else e :: addEdgeList u v ct rest

/-- The slice of `networkx.DiGraph` the visualizer exercises: vertices in
insertion order, each carrying either an attribute record (when added via
`add_node`) or none (when created implicitly by `add_edge`), plus the
directed edges. -/
structure DiGraph where
  nodes : List (JSON × Option NodeAttrs)
  edges : List Edge
deriving DecidableEq

/-- `DiGraph.add_node(id, label=..., type=..., parameters=...)`: replaces
the attributes of an existing vertex in place, otherwise appends. -/
def DiGraph.add_node (g : DiGraph) (i : JSON) (a : NodeAttrs) : DiGraph :=
  { g with nodes := alSet i (some a) g.nodes }

/-- Implicit vertex creation performed by `networkx.DiGraph.add_edge` for
a missing endpoint: the vertex is appended with an empty attribute
record. -/
def DiGraph.ensureNode (g : DiGraph) (i : JSON) : DiGraph :=
  match alFind g.nodes i with
  | some _ => g
  | none => { g with nodes := g.nodes ++ [(i, none)] }

/-- `DiGraph.add_edge(u, v, connection_type=ct)`: creates missing
endpoints implicitly, then inserts or overwrites the (u, v) edge. -/
def DiGraph.add_edge (g : DiGraph) (u v : JSON) (ct : String) : DiGraph :=
  let g1 := (g.ensureNode u).ensureNode v
  { g1 with edges := addEdgeList u v ct g1.edges }

/-- The keys of the graph's vertices, in insertion order. -/
def nodeKeys (g : DiGraph) : List JSON := g.nodes.map Prod.fst

/-- A stored display coordinate: the pair
`(node['position'][0], -node['position'][1])` exactly as the code stores
it (the first component is not negated and keeps its JSON form). -/
abbrev Coord := JSON × JSON

/-- The `self.pos` dictionary: node id to display coordinate. -/
abbrev PosMap := List (JSON × Coord)

/-- The mutable state `parse_workflow` builds up:
`self.graph` and `self.pos`. -/
structure PState where
  graph : DiGraph
  pos : PosMap
deriving DecidableEq

/-- The loop body of the node loop of `parse_workflow` (lines 45-58 of
`visualizer.py`) for a single node record.  Python evaluates the default
argument `node_type.split('.')[-1]` before calling `.get`, so a
non-string `type` fails even when an explicit `name` is present. -/
def nodeStep (s : PState) (node : JSON) : Except String PState := do
  let node_id ← jGet node "id"
  let node_type ← jGet node "type"
  let type_str ←
    (match node_type with
     | .str t => Except.ok t
     | _ => Except.error "AttributeError: split")
  let node_name ← jGetD node "name" (.str (lastSegment type_str))
  let params ← jGetD node "parameters" (.obj [])
  let g := s.graph.add_node node_id ⟨node_name, type_str, params⟩
  if hasKey node "position" then
    let p ← jGet node "position"
    let len ← jLen p
    if len ≥ 2 then
      let x ← jIndex p 0
      let y ← jIndex p 1
      let ny ← jNeg y
      Except.ok ⟨g, alSet node_id (x, ny) s.pos⟩
    else Except.ok ⟨g, s.pos⟩
  else Except.ok ⟨g, s.pos⟩

/-- The node loop of `parse_workflow`: `for node in workflow.get('nodes', [])`. -/
def processNodes : PState → List JSON → Except String PState
  | s, [] => Except.ok s
  | s, n :: ns => do processNodes (← nodeStep s n) ns

/-- The innermost connection loop body: `target_node_id = connection['node']`
followed by `add_edge` (lines 64-67 of `visualizer.py`). -/
def connStep (src ct : String) (s : PState) (c : JSON) : Except String PState := do
  let target_node_id ← jGet c "node"
  Except.ok { s with graph := s.graph.add_edge (.str src) target_node_id ct }

/-- `for connection in connection_list`. -/
def processConnList (src ct : String) : PState → List JSON → Except String PState
  | s, [] => Except.ok s
  | s, c :: cs => do processConnList src ct (← connStep src ct s c) cs

/-- `for connection_type, connection_list in source_connections.items()`. -/
def processCats (src : String) : PState → List (String × JSON) → Except String PState
  | s, [] => Except.ok s
  | s, (ct, lstJ) :: rest => do
    let lst ← jIter lstJ
    processCats src (← processConnList src ct s lst) rest

/-- `for source_node_id, source_connections in connections.items()`. -/
def processConns : PState → List (String × JSON) → Except String PState
  | s, [] => Except.ok s
  | s, (src, v) :: rest => do
    let cats ← jItems v
    processConns (← processCats src s cats) rest

/-- `WorkflowVisualizer.parse_workflow` (lines 42-67 of `visualizer.py`):
builds the graph and the position dict from the workflow document, with
any Python exception surfaced as an `Except.error`. -/
def parse_workflow (workflow : JSON) : Except String PState := do
  let nodesJ ← jGetD workflow "nodes" (.arr [])
  let nodeList ← jIter nodesJ
  let s ← processNodes ⟨⟨[], []⟩, []⟩ nodeList
  let connsJ ← jGetD workflow "connections" (.obj [])
  let entries ← jItems connsJ
  processConns s entries

/-- The fixed `self.type_colors` table (lines 28-40 of `visualizer.py`). -/
def type_colors : List (String × String) :=
  [("n8n-nodes-base.start", "#ff9a9c"),
   ("n8n-nodes-base.httpRequest", "#a4c2f4"),
   ("n8n-nodes-base.if", "#ffcc80"),
   ("n8n-nodes-base.function", "#d5a6bd"),
   ("n8n-nodes-base.set", "#b4a7d6"),
   ("n8n-nodes-base.code", "#a2c4c9"),
   ("n8n-nodes-base.moveBinaryData", "#b6d7a8"),
   ("n8n-nodes-base.spreadsheetFile", "#f9cb9c"),
   ("n8n-nodes-base.switch", "#ea9999"),
   ("n8n-nodes-base.merge", "#9fc5e8"),
   ("n8n-nodes-base.noOp", "#cccccc")]

/-- `WorkflowVisualizer._get_node_color`: the fixed table with the
neutral-gray fallback. -/
def _get_node_color (node_type : String) : String :=
  match type_colors.find? (fun p => p.1 == node_type) with
  | some p => p.2
  | none => "#cccccc"

/-- `WorkflowVisualizer._get_node_label` (lines 73-79 of `visualizer.py`):
`node_data.get('label', '')`, truncated to the first 18 characters plus
`"..."` when longer than 20 characters.  Note that nothing in the module
ever calls this method.  Modelled for string labels (the only case the
claims exercise; a non-string label would go through Python `len`). -/
def _get_node_label (node_data : Option NodeAttrs) : Except String String :=
  let label := match node_data with
    | some a => a.label
    | none => .str ""
  match label with
  | .str s => .ok (if s.length > 20 then String.mk (s.data.take 18) ++ "..." else s)
  | _ => .error "TypeError: unsupported label value"

/-- Abstraction of `nx.spring_layout(self.graph, k=0.5, iterations=50)`:
the library assigns every vertex of the graph some coordinate (its
internal randomized values are immaterial to the claims and are modelled
as the origin). -/
def spring_layout (g : DiGraph) : PosMap :=
  g.nodes.map (fun p => (p.1, (JSON.num 0, JSON.num 0)))

/-- A position lookup `pos[node_id]` performed by the drawing routines:
a KeyError when the node has no stored coordinate. -/
def lookupPos (m : PosMap) (i : JSON) : Except String Coord :=
  match alFind m i with
  | some c => .ok c
  | none => .error "KeyError: position"

/-- What `nx.draw_networkx_edges` reads for one edge: the coordinates of
both endpoints (a KeyError when either is missing from `pos`). -/
structure EdgeRender where
  source : JSON
  target : JSON
  sourceCoord : Coord
  targetCoord : Coord
deriving DecidableEq

/-- The per-vertex drawing data of the node loop of `draw` (lines
108-133): fill color from `_get_node_color`, the vertex coordinate (read
from `self.pos`, a KeyError when absent), and the small secondary label
`node_type.split('.')[-1]`. -/
structure NodeRender where
  id : JSON
  color : String
  coord : Coord
  typeText : String
deriving DecidableEq

/-- The edge pass of `draw` (`nx.draw_networkx_edges`, lines 95-105):
looks up both endpoint coordinates of every edge. -/
def drawEdges (m : PosMap) : List Edge → Except String (List EdgeRender)
  | [] => Except.ok []
  | e :: es => do
    let ps ← lookupPos m e.source
    let pt ← lookupPos m e.target
    Except.ok (⟨e.source, e.target, ps, pt⟩ :: (← drawEdges m es))

/-- The node pass of `draw` (lines 108-133): `node_data.get('type',
'unknown')` (an implicitly created vertex has an empty attribute dict),
the color lookup, the coordinate lookups of `nx.draw_networkx_nodes` and
`plt.text`, and the secondary type label. -/
def drawNodes (m : PosMap) : List (JSON × Option NodeAttrs) → Except String (List NodeRender)
  | [] => Except.ok []
  | p :: ps => do
    let t := match p.2 with
      | some a => a.type
      | none => "unknown"
    let coord ← lookupPos m p.1
    Except.ok (⟨p.1, _get_node_color t, coord, lastSegment t⟩ :: (← drawNodes m ps))

/-- The primary label map of `draw` (line 136):
`{n: d['label'] for n, d in self.graph.nodes(data=True)}` — a KeyError on
an implicitly created vertex, and no truncation of any kind. -/
def labelsOf : List (JSON × Option NodeAttrs) → Except String (List (JSON × JSON))
  | [] => Except.ok []
  | (i, attrs) :: rest =>
    match attrs with
    | some a => do Except.ok ((i, a.label) :: (← labelsOf rest))
    | none => Except.error "KeyError: label"

/-- Everything `WorkflowVisualizer.draw` (lines 81-170) computes and hands
to the plotting library, in source order: the layout choice, the edge
pass, the node pass, the primary label map, the edge label map
(`d.get('connection_type', '')`), and the title
(`workflow.get('name', 'Untitled')`). -/
structure DrawData where
  usedSpringLayout : Bool
  layout : PosMap
  edgeRender : List EdgeRender
  nodeRender : List NodeRender
  labels : List (JSON × JSON)
  edge_labels : List ((JSON × JSON) × String)
  title : JSON
deriving DecidableEq

/-- `WorkflowVisualizer.draw`, up to the matplotlib side effects: `if not
self.pos:` selects the spring layout, then the drawing passes run in
source order; any Python exception is an `Except.error`. -/
def draw (workflow : JSON) (g : DiGraph) (pos : PosMap) : Except String DrawData := do
  let layout := if pos.isEmpty then spring_layout g else pos
  let er ← drawEdges layout g.edges
  let nr ← drawNodes layout g.nodes
  let ls ← labelsOf g.nodes
  let title ← jGetD workflow "name" (.str "Untitled")
  Except.ok
    ⟨pos.isEmpty, layout, er, nr, ls,
     g.edges.map (fun e => ((e.source, e.target), e.connection_type)), title⟩

/-- Python truthiness of an `Optional[str]`: `None` and the empty string
are falsy. -/
def optTruthy (o : Option String) : Bool :=
  match o with
  | none => false
  | some s => !(decide (s = ""))

/-- The observable outcome of one visualization run: the file the figure
was saved to (`if output_file: plt.savefig(...)`), whether it was shown,
and the rendered data. -/
structure VisOutcome where
  saved : Option String
  shown : Bool
  data : DrawData
deriving DecidableEq

/-- `visualize_workflow(workflow_data, output_file, show)` (lines
172-182): build the graph, draw it, save exactly when `output_file` is
truthy.  It never derives a default output filename. -/
def visualize_workflow (workflow_data : JSON) (output_file : Option String)
    (showFlag : Bool) : Except String VisOutcome := do
  let s ← parse_workflow workflow_data
  let d ← draw workflow_data s.graph s.pos
  Except.ok ⟨if optTruthy output_file then output_file else none, showFlag, d⟩

/-- `os.path.basename` on POSIX: the part after the last `/`. -/
def basename (p : String) : String :=
  String.mk (afterLastSep '/' p.data [])

/-- The characters strictly before the last `.` of the list. -/
def dropLastExt (cs : List Char) : List Char :=
  ((cs.reverse.dropWhile (fun c => c != '.')).drop 1).reverse

/-- The root part of `os.path.splitext` applied to a basename: leading
dots never start an extension; otherwise the extension begins at the last
dot. -/
def splitext_root (b : String) : String :=
  let cs := b.data
  let lead := cs.takeWhile (fun c => c == '.')
  let rest := cs.drop lead.length
  if rest.contains '.' then String.mk (lead ++ dropLastExt rest) else b

/-- `visualize_workflow_file(workflow_file, output_file, show)` (lines
184-199).  The `json.load` of the opened file is abstracted into the
`workflow_data` argument.  The default output filename
`<basename-without-extension>_visualization.png` is derived exactly when
`not output_file and not show` (Python truthiness). -/
def visualize_workflow_file (workflow_file : String) (workflow_data : JSON)
    (output_file : Option String) (showFlag : Bool) : Except String VisOutcome :=
  let out :=
    if !optTruthy output_file && !showFlag then
      some (splitext_root (basename workflow_file) ++ "_visualization.png")
    else output_file
  visualize_workflow workflow_data out showFlag

/-- The observable outcome of the command-line entry point: the exit code
(0 when `main` falls off its end), the error lines `main` itself prints,
and whether the visualization call was reached. -/
structure CliResult where
  exit_code : Nat
  printed : List String
  attempted : Bool
deriving DecidableEq

/-- The Python `main()` (lines 201-224; named `cli_main` here because Lean
reserves `main`): the parsed arguments are `workflow_file`, `--output` and
`--no-show`; `os.path.exists` is abstracted into `file_exists` and the
`json.load` of the file into `workflow_data`. -/
def cli_main (workflow_file : String) (output : Option String) (no_show : Bool)
    (file_exists : Bool) (workflow_data : JSON) : CliResult :=
  if !file_exists then
    ⟨1, ["Error: File '" ++ workflow_file ++ "' not found"], false⟩
  else
    match visualize_workflow_file workflow_file workflow_data output (!no_show) with
    | .error e => ⟨1, ["Error visualizing workflow: " ++ e], true⟩
    | .ok _ => ⟨0, [], true⟩

/-- Whether an `Except` computation succeeded. -/
def exceptIsOk {ε α : Type} : Except ε α → Bool
  | .ok _ => true
  | .error _ => false

/-- The ids of a list of node records, as `parse_workflow` reads them
(`node['id']` for each record, failing where it would). -/
def nodeIds : List JSON → Except String (List JSON)
  | [] => Except.ok []
  | r :: rs => do Except.ok ((← jGet r "id") :: (← nodeIds rs))

/-- The document lists a connection from `u` to `v` under category `ct`:
some entry of the connections mapping has source key `u`, its category
mapping contains `ct`, and that category's connection list contains a
record whose `node` field is `v`. -/
def ListedPair (entries : List (String × JSON)) (u v : JSON) (ct : String) : Prop :=
  ∃ src catsJ cats lstJ lst c,
    (src, catsJ) ∈ entries ∧ u = .str src ∧
    jItems catsJ = .ok cats ∧ (ct, lstJ) ∈ cats ∧
    jIter lstJ = .ok lst ∧ c ∈ lst ∧ jGet c "node" = .ok v

/-- The round-trip document of the specification, in the genuine n8n
export shape: the `main` category maps to a list of output slots, each of
which is a list of connection records. -/
def c1doc : JSON :=
  .obj [("name", .str "T"),
        ("nodes", .arr
          [.obj [("id", .str "1"), ("type", .str "n8n-nodes-base.start"),
                 ("position", .arr [.num 0, .num 0])],
           .obj [("id", .str "2"), ("type", .str "n8n-nodes-base.set"),
                 ("name", .str "SetX")]]),
        ("connections", .obj
          [("1", .obj [("main", .arr [.arr [.obj [("node", .str "2")]]])])])]

/-- A document whose connections list the same (source, target) pair under
two different categories, `"a"` first and `"b"` second. -/
def c3doc : JSON :=
  .obj [("nodes", .arr
          [.obj [("id", .str "1"), ("type", .str "t")],
           .obj [("id", .str "2"), ("type", .str "t")]]),
        ("connections", .obj
          [("1", .obj [("a", .arr [.obj [("node", .str "2")]]),
                       ("b", .arr [.obj [("node", .str "2")]])])])]

/-- A 25-character node name. -/
def c4full : String := "ABCDEFGHIJKLMNOPQRSTUVWXY"

/-- A document with a single node whose name is 25 characters long. -/
def c4doc : JSON :=
  .obj [("name", .str "T"),
        ("nodes", .arr
          [.obj [("id", .str "1"), ("type", .str "n8n-nodes-base.set"),
                 ("name", .str c4full),
                 ("position", .arr [.num 0, .num 0])]])]

/-- A well-formed document: two nodes with distinct ids, both carrying
explicit positions, and a flat connection list from node 1 to node 2. -/
def wdoc : JSON :=
  .obj [("name", .str "W"),
        ("nodes", .arr
          [.obj [("id", .str "1"), ("type", .str "n8n-nodes-base.start"),
                 ("position", .arr [.num 10, .num 20])],
           .obj [("id", .str "2"), ("type", .str "n8n-nodes-base.set"),
                 ("name", .str "SetX"),
                 ("position", .arr [.num 30, .num 40])]]),
        ("connections", .obj
          [("1", .obj [("main", .arr [.obj [("node", .str "2")]])])])]

/-- A document where node 1 carries an explicit position and node 2 does
not. -/
def c10doc : JSON :=
  .obj [("name", .str "M"),
        ("nodes", .arr
          [.obj [("id", .str "1"), ("type", .str "n8n-nodes-base.start"),
                 ("position", .arr [.num 10, .num 20])],
           .obj [("id", .str "2"), ("type", .str "n8n-nodes-base.set")]])]

/-- The state `parse_workflow` builds for `wdoc` (checked by `rfl` below). -/
def wstate : PState :=
  ⟨⟨[(.str "1", some ⟨.str "start", "n8n-nodes-base.start", .obj []⟩),
     (.str "2", some ⟨.str "SetX", "n8n-nodes-base.set", .obj []⟩)],
    [⟨.str "1", .str "2", "main"⟩]⟩,
   [(.str "1", (.num 10, .num (-20))), (.str "2", (.num 30, .num (-40)))]⟩

/-- The state `parse_workflow` builds for `c10doc` (checked by `rfl`
below): only node 1 has a stored position. -/
def c10state : PState :=
  ⟨⟨[(.str "1", some ⟨.str "start", "n8n-nodes-base.start", .obj []⟩),
     (.str "2", some ⟨.str "set", "n8n-nodes-base.set", .obj []⟩)],
    []⟩,
   [(.str "1", (.num 10, .num (-20)))]⟩

/-- Splitting a successful `Except` bind into its two successful stages. -/
theorem except_bind_ok {ε α β : Type} {x : Except ε α} {f : α → Except ε β} {b : β} :
    (x >>= f) = .ok b ↔ ∃ a, x = .ok a ∧ f a = .ok b := by
  cases x <;> simp [Bind.bind, Except.bind]

/-- A bind whose first stage fails fails with the same error. -/
theorem except_bind_error {ε α β : Type} {x : Except ε α} {f : α → Except ε β} {e : ε}
    (h : x = .error e) : (x >>= f) = .error e := by
  subst h; rfl

theorem exceptIsOk_ok {ε α : Type} {x : Except ε α} (a : α) (h : x = .ok a) :
    exceptIsOk x = true := by subst h; rfl

theorem exceptIsOk_error {ε α : Type} {x : Except ε α} (e : ε) (h : x = .error e) :
    exceptIsOk x = false := by subst h; rfl

theorem exceptIsOk_true_iff {ε α : Type} (x : Except ε α) :
    exceptIsOk x = true ↔ ∃ a, x = .ok a := by
  cases x <;> simp [exceptIsOk]

theorem exceptIsOk_false_iff {ε α : Type} (x : Except ε α) :
    exceptIsOk x = false ↔ ∃ e, x = .error e := by
  cases x <;> simp [exceptIsOk]

theorem alFind_alSet_self {β : Type} (l : List (JSON × β)) (k : JSON) (v : β) :
    alFind (alSet k v l) k = some v := by
  induction l with
  | nil => simp [alSet, alFind]
  | cons p rest ih =>
    obtain ⟨a, b⟩ := p
    by_cases h : a = k
    · simp [alSet, alFind, h]
    · simp [alSet, alFind, h, ih]

theorem alFind_alSet_ne {β : Type} (l : List (JSON × β)) (k k' : JSON) (v : β)
    (h : k' ≠ k) : alFind (alSet k v l) k' = alFind l k' := by
  induction l with
  | nil => simp [alSet, alFind, Ne.symm h]
  | cons p rest ih =>
    obtain ⟨a, b⟩ := p
    by_cases hp : a = k
    · simp [alSet, alFind, hp, Ne.symm h]
    · by_cases hk : a = k'
      · simp [alSet, alFind, hp, hk, h]
      · simp [alSet, alFind, hp, hk, ih]

theorem alFind_isSome_iff_mem {β : Type} (l : List (JSON × β)) (k : JSON) :
    (alFind l k).isSome = true ↔ k ∈ l.map Prod.fst := by
  induction l with
  | nil => simp [alFind]
  | cons p rest ih =>
    obtain ⟨a, b⟩ := p
    by_cases h : a = k
    · simp [alFind, h]
    · simp [alFind, h, ih, Ne.symm h]

theorem alFind_none_iff_not_mem {β : Type} (l : List (JSON × β)) (k : JSON) :
    alFind l k = none ↔ k ∉ l.map Prod.fst := by
  rw [← alFind_isSome_iff_mem]
  cases alFind l k <;> simp

theorem alFind_some_mem {β : Type} {l : List (JSON × β)} {k : JSON} {v : β}
    (h : alFind l k = some v) : (k, v) ∈ l := by
  induction l with
  | nil => simp [alFind] at h
  | cons p rest ih =>
    obtain ⟨a, b⟩ := p
    by_cases hp : a = k
    · simp only [alFind, hp, if_true, Option.some.injEq] at h
      subst hp h
      exact List.mem_cons_self _ _
    · simp only [alFind, hp, if_false] at h
      exact List.mem_cons_of_mem _ (ih h)

theorem alFind_append_some {β : Type} {l : List (JSON × β)} {k : JSON} {v : β}
    (l2 : List (JSON × β)) (h : alFind l k = some v) :
    alFind (l ++ l2) k = some v := by
  induction l with
  | nil => simp [alFind] at h
  | cons p rest ih =>
    obtain ⟨a, b⟩ := p
    by_cases hp : a = k
    · simpa [alFind, hp] using h
    · simp only [alFind, hp, if_false] at h ⊢
      simpa [alFind, hp] using ih h

theorem alSet_keys {β : Type} (l : List (JSON × β)) (k : JSON) (v : β) :
    (alSet k v l).map Prod.fst =
      if k ∈ l.map Prod.fst then l.map Prod.fst else l.map Prod.fst ++ [k] := by
  induction l with
  | nil => simp [alSet]
  | cons p rest ih =>
    obtain ⟨a, b⟩ := p
    by_cases h : a = k
    · simp [alSet, h]
    · simp only [alSet, h, if_false, List.map_cons, ih]
      by_cases hm : k ∈ rest.map Prod.fst
      · simp [hm, Ne.symm h]
      · simp [hm, Ne.symm h]

@[simp] theorem except_ok_bind {ε α β : Type} (a : α) (f : α → Except ε β) :
    (Except.ok a >>= f) = f a := rfl

@[simp] theorem except_error_bind {ε α β : Type} (e : ε) (f : α → Except ε β) :
    ((Except.error e : Except ε α) >>= f) = .error e := rfl

theorem add_node_nodes (g : DiGraph) (i : JSON) (a : NodeAttrs) :
    (g.add_node i a).nodes = alSet i (some a) g.nodes := rfl

theorem add_node_edges (g : DiGraph) (i : JSON) (a : NodeAttrs) :
    (g.add_node i a).edges = g.edges := rfl

theorem add_node_keys (g : DiGraph) (i : JSON) (a : NodeAttrs) :
    nodeKeys (g.add_node i a) =
      if i ∈ nodeKeys g then nodeKeys g else nodeKeys g ++ [i] := by
  simpa [nodeKeys, DiGraph.add_node] using alSet_keys g.nodes i (some a)

theorem add_node_find_self (g : DiGraph) (i : JSON) (a : NodeAttrs) :
    alFind (g.add_node i a).nodes i = some (some a) :=
  alFind_alSet_self g.nodes i (some a)

theorem add_node_find_ne (g : DiGraph) (i j : JSON) (a : NodeAttrs) (h : j ≠ i) :
    alFind (g.add_node i a).nodes j = alFind g.nodes j :=
  alFind_alSet_ne g.nodes i j (some a) h

theorem ensureNode_edges (g : DiGraph) (i : JSON) :
    (g.ensureNode i).edges = g.edges := by
  unfold DiGraph.ensureNode
  cases alFind g.nodes i <;> rfl

theorem ensureNode_of_mem {g : DiGraph} {i : JSON} (h : i ∈ nodeKeys g) :
    g.ensureNode i = g := by
  have hs : (alFind g.nodes i).isSome = true := (alFind_isSome_iff_mem _ _).2 h
  unfold DiGraph.ensureNode
  cases hf : alFind g.nodes i with
  | some w => rfl
  | none => rw [hf] at hs; simp at hs

theorem ensureNode_find_pres {g : DiGraph} {j : JSON} {w : Option NodeAttrs}
    (i : JSON) (h : alFind g.nodes j = some w) :
    alFind (g.ensureNode i).nodes j = some w := by
  unfold DiGraph.ensureNode
  cases hf : alFind g.nodes i with
  | some w2 => exact h
  | none => exact alFind_append_some _ h

theorem add_edge_edges (g : DiGraph) (u v : JSON) (ct : String) :
    (g.add_edge u v ct).edges = addEdgeList u v ct g.edges := by
  simp [DiGraph.add_edge, ensureNode_edges]

theorem add_edge_nodes_of_mem {g : DiGraph} {u v : JSON} (ct : String)
    (hu : u ∈ nodeKeys g) (hv : v ∈ nodeKeys g) :
    (g.add_edge u v ct).nodes = g.nodes := by
  simp [DiGraph.add_edge, ensureNode_of_mem hu, ensureNode_of_mem hv]

theorem add_edge_find_pres {g : DiGraph} {j : JSON} {w : Option NodeAttrs}
    (u v : JSON) (ct : String) (h : alFind g.nodes j = some w) :
    alFind (g.add_edge u v ct).nodes j = some w := by
  have h1 := ensureNode_find_pres (g := g) u h
  have h2 := ensureNode_find_pres (g := g.ensureNode u) v h1
  simpa [DiGraph.add_edge] using h2

theorem addEdgeList_mem_self (u v : JSON) (ct : String) (es : List Edge) :
    Edge.mk u v ct ∈ addEdgeList u v ct es := by
  induction es with
  | nil => simp [addEdgeList]
  | cons e rest ih =>
    by_cases h : e.source = u ∧ e.target = v
    · simp [addEdgeList, h, h.1, h.2]
    · simp only [addEdgeList, h, if_false]
      exact List.mem_cons_of_mem _ ih

theorem addEdgeList_pair_pres {es : List Edge} {e : Edge}
    (u v : JSON) (ct : String) (h : e ∈ es) :
    ∃ ct2, Edge.mk e.source e.target ct2 ∈ addEdgeList u v ct es := by
  induction es with
  | nil => simp at h
  | cons e0 rest ih =>
    by_cases h0 : e0.source = u ∧ e0.target = v
    · rcases List.mem_cons.1 h with he | he
      · subst he
        exact ⟨ct, by simp [addEdgeList, h0]⟩
      · exact ⟨e.connection_type, by
          simp only [addEdgeList, h0, if_true]
          exact List.mem_cons_of_mem _ he⟩
    · rcases List.mem_cons.1 h with he | he
      · subst he
        exact ⟨e.connection_type, by
          simp only [addEdgeList, h0, if_false]
          exact List.mem_cons_self _ _⟩
      · rcases ih he with ⟨ct2, hm⟩
        exact ⟨ct2, by
          simp only [addEdgeList, h0, if_false]
          exact List.mem_cons_of_mem _ hm⟩

theorem addEdgeList_sound {es : List Edge} {e' : Edge} {u v : JSON} {ct : String}
    (h : e' ∈ addEdgeList u v ct es) : e' ∈ es ∨ e' = ⟨u, v, ct⟩ := by
  induction es with
  | nil => simp [addEdgeList] at h; right; exact h
  | cons e0 rest ih =>
    by_cases h0 : e0.source = u ∧ e0.target = v
    · rw [addEdgeList, if_pos h0] at h
      rcases List.mem_cons.1 h with he | he
      · right; rw [he, h0.1, h0.2]
      · left; exact List.mem_cons_of_mem _ he
    · simp only [addEdgeList, h0, if_false] at h
      rcases List.mem_cons.1 h with he | he
      · left; rw [he]; exact List.mem_cons_self _ _
      · rcases ih he with hin | heq
        · left; exact List.mem_cons_of_mem _ hin
        · right; exact heq

theorem add_edge_mem_self (g : DiGraph) (u v : JSON) (ct : String) :
    Edge.mk u v ct ∈ (g.add_edge u v ct).edges := by
  rw [add_edge_edges]
  exact addEdgeList_mem_self u v ct g.edges

theorem add_edge_pair_pres {g : DiGraph} {e : Edge} (u v : JSON) (ct : String)
    (h : e ∈ g.edges) :
    ∃ ct2, Edge.mk e.source e.target ct2 ∈ (g.add_edge u v ct).edges := by
  rw [add_edge_edges]
  exact addEdgeList_pair_pres u v ct h

theorem add_edge_sound {g : DiGraph} {e' : Edge} {u v : JSON} {ct : String}
    (h : e' ∈ (g.add_edge u v ct).edges) : e' ∈ g.edges ∨ e' = ⟨u, v, ct⟩ := by
  rw [add_edge_edges] at h
  exact addEdgeList_sound h

/-- Full characterization of a successful `nodeStep`: the values read from
the record, the `add_node` effect on the graph, and the three possible
effects on the position dict. -/
theorem nodeStep_ok {s : PState} {r : JSON} {s' : PState} (h : nodeStep s r = .ok s') :
    ∃ i t name params,
      jGet r "id" = .ok i ∧ jGet r "type" = .ok (.str t) ∧
      jGetD r "name" (.str (lastSegment t)) = .ok name ∧
      jGetD r "parameters" (.obj []) = .ok params ∧
      s'.graph = s.graph.add_node i ⟨name, t, params⟩ ∧
      ((hasKey r "position" = false ∧ s'.pos = s.pos) ∨
       (hasKey r "position" = true ∧
        ∃ p n, jGet r "position" = .ok p ∧ jLen p = .ok n ∧
          ((n < 2 ∧ s'.pos = s.pos) ∨
           (2 ≤ n ∧ ∃ x y ny, jIndex p 0 = .ok x ∧ jIndex p 1 = .ok y ∧
             jNeg y = .ok ny ∧ s'.pos = alSet i (x, ny) s.pos)))) := by
  unfold nodeStep at h
  cases h1 : jGet r "id" with
  | error e => rw [h1] at h; simp at h
  | ok i =>
  rw [h1] at h
  rw [except_ok_bind] at h
  cases h2 : jGet r "type" with
  | error e => rw [h2] at h; simp at h
  | ok tv =>
  rw [h2] at h
  rw [except_ok_bind] at h
  cases tv with
  | str t =>
    rw [except_ok_bind] at h
    cases h3 : jGetD r "name" (.str (lastSegment t)) with
    | error e => rw [h3] at h; simp at h
    | ok name =>
    rw [h3] at h
    rw [except_ok_bind] at h
    cases h4 : jGetD r "parameters" (.obj []) with
    | error e => rw [h4] at h; simp at h
    | ok params =>
    rw [h4] at h
    rw [except_ok_bind] at h
    refine ⟨i, t, name, params, rfl, rfl, h3, rfl, ?_⟩
    cases hk : hasKey r "position" with
    | false =>
      rw [hk] at h
      simp only [Bool.false_eq_true, if_false, Except.ok.injEq] at h
      subst h
      exact ⟨rfl, Or.inl ⟨rfl, rfl⟩⟩
    | true =>
      rw [hk] at h
      simp only [if_true] at h
      cases h5 : jGet r "position" with
      | error e => rw [h5] at h; simp at h
      | ok p =>
      rw [h5] at h
      rw [except_ok_bind] at h
      cases h6 : jLen p with
      | error e => rw [h6] at h; simp at h
      | ok n =>
      rw [h6] at h
      rw [except_ok_bind] at h
      by_cases h7 : n ≥ 2
      · rw [if_pos h7] at h
        cases h8 : jIndex p 0 with
        | error e => rw [h8] at h; simp at h
        | ok x =>
        rw [h8] at h
        rw [except_ok_bind] at h
        cases h9 : jIndex p 1 with
        | error e => rw [h9] at h; simp at h
        | ok y =>
        rw [h9] at h
        rw [except_ok_bind] at h
        cases h10 : jNeg y with
        | error e => rw [h10] at h; simp at h
        | ok ny =>
        rw [h10] at h
        rw [except_ok_bind, Except.ok.injEq] at h
        subst h
        exact ⟨rfl, Or.inr ⟨rfl, p, n, rfl, h6,
          Or.inr ⟨h7, x, y, ny, h8, h9, h10, rfl⟩⟩⟩
      · rw [if_neg h7, Except.ok.injEq] at h
        subst h
        exact ⟨rfl, Or.inr ⟨rfl, p, n, rfl, h6,
          Or.inl ⟨by omega, rfl⟩⟩⟩
  | null => simp at h
  | bool b => simp at h
  | num n => simp at h
  | arr xs => simp at h
  | obj es => simp at h

@[simp] theorem processNodes_nil (s : PState) : processNodes s [] = .ok s := rfl

theorem processNodes_cons (s : PState) (r : JSON) (rs : List JSON) :
    processNodes s (r :: rs) = (nodeStep s r >>= fun s1 => processNodes s1 rs) := rfl

theorem processNodes_cons_ok {s : PState} {r : JSON} {rs : List JSON} {s' : PState}
    (h : processNodes s (r :: rs) = .ok s') :
    ∃ s1, nodeStep s r = .ok s1 ∧ processNodes s1 rs = .ok s' := by
  rw [processNodes_cons] at h
  exact except_bind_ok.1 h

theorem nodeIds_cons_ok {r : JSON} {rs : List JSON} {ids : List JSON}
    (h : nodeIds (r :: rs) = .ok ids) :
    ∃ j rest, jGet r "id" = .ok j ∧ nodeIds rs = .ok rest ∧ ids = j :: rest := by
  unfold nodeIds at h
  cases h1 : jGet r "id" with
  | error e => rw [h1] at h; simp at h
  | ok j =>
  rw [h1, except_ok_bind] at h
  cases h2 : nodeIds rs with
  | error e => rw [h2] at h; simp at h
  | ok rest =>
  rw [h2, except_ok_bind, Except.ok.injEq] at h
  exact ⟨j, rest, rfl, rfl, h.symm⟩

theorem nodeIds_length {l : List JSON} {ids : List JSON}
    (h : nodeIds l = .ok ids) : ids.length = l.length := by
  induction l generalizing ids with
  | nil =>
    unfold nodeIds at h
    simp only [Except.ok.injEq] at h
    subst h; rfl
  | cons r rs ih =>
    rcases nodeIds_cons_ok h with ⟨j, rest, _, h2, h3⟩
    subst h3
    simp [ih h2]

theorem nodeIds_mem {l : List JSON} {ids : List JSON} {r : JSON}
    (h : nodeIds l = .ok ids) (hm : r ∈ l) :
    ∃ j, jGet r "id" = .ok j ∧ j ∈ ids := by
  induction l generalizing ids with
  | nil => simp at hm
  | cons r0 rs ih =>
    rcases nodeIds_cons_ok h with ⟨j, rest, h1, h2, h3⟩
    subst h3
    rcases List.mem_cons.1 hm with he | he
    · subst he; exact ⟨j, h1, List.mem_cons_self _ _⟩
    · rcases ih h2 he with ⟨j2, hj2, hmem⟩
      exact ⟨j2, hj2, List.mem_cons_of_mem _ hmem⟩

theorem processNodes_edges {s : PState} {l : List JSON} {s' : PState}
    (h : processNodes s l = .ok s') : s'.graph.edges = s.graph.edges := by
  induction l generalizing s with
  | nil => simp only [processNodes_nil, Except.ok.injEq] at h; subst h; rfl
  | cons r rs ih =>
    rcases processNodes_cons_ok h with ⟨s1, h1, h2⟩
    rcases nodeStep_ok h1 with ⟨i, t, name, params, _, _, _, _, hg, _⟩
    rw [ih h2, hg, add_node_edges]

theorem processNodes_find_pres {s : PState} {l : List JSON} {s' : PState} {i : JSON}
    (h : processNodes s l = .ok s')
    (hne : ∀ r' ∈ l, ∀ j, jGet r' "id" = .ok j → j ≠ i) :
    alFind s'.graph.nodes i = alFind s.graph.nodes i := by
  induction l generalizing s with
  | nil => simp only [processNodes_nil, Except.ok.injEq] at h; subst h; rfl
  | cons r rs ih =>
    rcases processNodes_cons_ok h with ⟨s1, h1, h2⟩
    rcases nodeStep_ok h1 with ⟨j, t, name, params, hid, _, _, _, hg, _⟩
    have hji : j ≠ i := hne r (List.mem_cons_self _ _) j hid
    have step : alFind s1.graph.nodes i = alFind s.graph.nodes i := by
      rw [hg]
      exact add_node_find_ne _ _ _ _ (fun hh => hji hh.symm)
    rw [ih h2 (fun r' hr' => hne r' (List.mem_cons_of_mem _ hr')), step]

theorem processNodes_pos_pres {s : PState} {l : List JSON} {s' : PState} {i : JSON}
    (h : processNodes s l = .ok s')
    (hne : ∀ r' ∈ l, ∀ j, jGet r' "id" = .ok j → j ≠ i) :
    alFind s'.pos i = alFind s.pos i := by
  induction l generalizing s with
  | nil => simp only [processNodes_nil, Except.ok.injEq] at h; subst h; rfl
  | cons r rs ih =>
    rcases processNodes_cons_ok h with ⟨s1, h1, h2⟩
    rcases nodeStep_ok h1 with ⟨j, t, name, params, hid, _, _, _, _, hpos⟩
    have hji : j ≠ i := hne r (List.mem_cons_self _ _) j hid
    have step : alFind s1.pos i = alFind s.pos i := by
      rcases hpos with ⟨_, hsame⟩ | ⟨_, p, n, _, _, hcases⟩
      · rw [hsame]
      · rcases hcases with ⟨_, hsame⟩ | ⟨_, x, y, ny, _, _, _, hset⟩
        · rw [hsame]
        · rw [hset]
          exact alFind_alSet_ne _ _ _ _ (fun hh => hji hh.symm)
    rw [ih h2 (fun r' hr' => hne r' (List.mem_cons_of_mem _ hr')), step]

theorem processNodes_keys {s : PState} {l : List JSON} {s' : PState} {ids : List JSON}
    (h : processNodes s l = .ok s') (hids : nodeIds l = .ok ids)
    (hfresh : ∀ i ∈ ids, i ∉ nodeKeys s.graph) (hnd : ids.Nodup) :
    nodeKeys s'.graph = nodeKeys s.graph ++ ids := by
  induction l generalizing s ids with
  | nil =>
    unfold nodeIds at hids
    simp only [Except.ok.injEq] at hids
    subst hids
    simp only [processNodes_nil, Except.ok.injEq] at h
    subst h
    simp
  | cons r rs ih =>
    rcases nodeIds_cons_ok hids with ⟨j, rest, hid, hrest, hi⟩
    subst hi
    rcases processNodes_cons_ok h with ⟨s1, h1, h2⟩
    rcases nodeStep_ok h1 with ⟨j2, t, name, params, hid2, _, _, _, hg, _⟩
    have hjj : j = j2 := by
      rw [hid] at hid2
      exact Except.ok.inj hid2
    subst hjj
    have hjfresh : j ∉ nodeKeys s.graph := hfresh j (List.mem_cons_self _ _)
    have hkeys1 : nodeKeys s1.graph = nodeKeys s.graph ++ [j] := by
      rw [hg, add_node_keys, if_neg hjfresh]
    have hfresh' : ∀ i ∈ rest, i ∉ nodeKeys s1.graph := by
      intro i hi
      rw [hkeys1]
      intro hmem
      rcases List.mem_append.1 hmem with hm1 | hm2
      · exact hfresh i (List.mem_cons_of_mem _ hi) hm1
      · exact (List.nodup_cons.1 hnd).1 (List.mem_singleton.1 hm2 ▸ hi)
    rw [ih h2 hrest hfresh' (List.nodup_cons.1 hnd).2, hkeys1, List.append_assoc]
    rfl

theorem jGet_ok_hasKey {d : JSON} {k : String} {v : JSON}
    (h : jGet d k = .ok v) : hasKey d k = true := by
  cases d with
  | obj entries =>
    cases hf : entriesFind entries k with
    | some w => simp [hasKey, hf]
    | none => simp [jGet, hf] at h
  | null => simp [jGet] at h
  | bool b => simp [jGet] at h
  | num n => simp [jGet] at h
  | str s => simp [jGet] at h
  | arr xs => simp [jGet] at h

/-- Walking `processNodes` to the record with id `i` (ids pairwise
distinct): afterwards the vertex `i` carries exactly the attributes the
record prescribes, and no later record disturbs them. -/
theorem processNodes_sets_attr {s : PState} {l : List JSON} {s' : PState}
    {ids : List JSON} {r i : JSON}
    (h : processNodes s l = .ok s') (hids : nodeIds l = .ok ids)
    (hnd : ids.Nodup) (hm : r ∈ l) (hid : jGet r "id" = .ok i) :
    ∃ t name params,
      jGet r "type" = .ok (.str t) ∧
      jGetD r "name" (.str (lastSegment t)) = .ok name ∧
      jGetD r "parameters" (.obj []) = .ok params ∧
      alFind s'.graph.nodes i = some (some ⟨name, t, params⟩) := by
  induction l generalizing s ids with
  | nil => simp at hm
  | cons r0 rs ih =>
    rcases nodeIds_cons_ok hids with ⟨j, rest, hjid, hrest, hi⟩
    subst hi
    rcases processNodes_cons_ok h with ⟨s1, h1, h2⟩
    rcases nodeStep_ok h1 with ⟨j2, t, name, params, hid2, ht, hname, hparams, hg, _⟩
    have hjj : j = j2 := by
      rw [hjid] at hid2
      exact Except.ok.inj hid2
    subst hjj
    rcases List.mem_cons.1 hm with he | he
    · subst he
      have hij : i = j := by
        rw [hjid] at hid
        exact (Except.ok.inj hid).symm
      subst hij
      refine ⟨t, name, params, ht, hname, hparams, ?_⟩
      have hset : alFind s1.graph.nodes i = some (some ⟨name, t, params⟩) := by
        rw [hg]
        exact add_node_find_self _ _ _
      have hne : ∀ r' ∈ rs, ∀ j', jGet r' "id" = .ok j' → j' ≠ i := by
        intro r' hr' j' hj' hji
        subst hji
        rcases nodeIds_mem hrest hr' with ⟨j2', hj2', hmem⟩
        rw [hj'] at hj2'
        have : j' = j2' := Except.ok.inj hj2'
        subst this
        exact (List.nodup_cons.1 hnd).1 hmem
      rw [processNodes_find_pres h2 hne, hset]
    · exact ih h2 hrest (List.nodup_cons.1 hnd).2 he

/-- Walking `processNodes` to the record with id `i` (ids pairwise
distinct), for the position dict: a record with a well-formed position of
length at least 2 stores the inverted coordinate; a record without a
`position` key, or with one shorter than 2, leaves the entry for `i`
untouched. -/
theorem processNodes_sets_pos {s : PState} {l : List JSON} {s' : PState}
    {ids : List JSON} {r i : JSON}
    (h : processNodes s l = .ok s') (hids : nodeIds l = .ok ids)
    (hnd : ids.Nodup) (hm : r ∈ l) (hid : jGet r "id" = .ok i) :
    (∀ p, jGet r "position" = .ok p → ∀ n, jLen p = .ok n → 2 ≤ n →
       ∃ x y ny, jIndex p 0 = .ok x ∧ jIndex p 1 = .ok y ∧ jNeg y = .ok ny ∧
         alFind s'.pos i = some (x, ny)) ∧
    ((hasKey r "position" = false ∨
      (∃ p n, jGet r "position" = .ok p ∧ jLen p = .ok n ∧ n < 2)) →
       alFind s'.pos i = alFind s.pos i) := by
  induction l generalizing s ids with
  | nil => simp at hm
  | cons r0 rs ih =>
    rcases nodeIds_cons_ok hids with ⟨j, rest, hjid, hrest, hi⟩
    subst hi
    rcases processNodes_cons_ok h with ⟨s1, h1, h2⟩
    rcases nodeStep_ok h1 with ⟨j2, t, name, params, hid2, ht, hname, hparams, hg, hpos⟩
    have hjj : j = j2 := by
      rw [hjid] at hid2
      exact Except.ok.inj hid2
    subst hjj
    rcases List.mem_cons.1 hm with he | he
    · subst he
      have hij : i = j := by
        rw [hjid] at hid
        exact (Except.ok.inj hid).symm
      subst hij
      have hne : ∀ r' ∈ rs, ∀ j', jGet r' "id" = .ok j' → j' ≠ i := by
        intro r' hr' j' hj' hji
        subst hji
        rcases nodeIds_mem hrest hr' with ⟨j2', hj2', hmem⟩
        rw [hj'] at hj2'
        have : j' = j2' := Except.ok.inj hj2'
        subst this
        exact (List.nodup_cons.1 hnd).1 hmem
      have hrespres : alFind s'.pos i = alFind s1.pos i :=
        processNodes_pos_pres h2 hne
      constructor
      · intro p hp n hn h2n
        rcases hpos with ⟨hkf, _⟩ | ⟨_, p0, n0, hp0, hn0, hcases⟩
        · rw [jGet_ok_hasKey hp] at hkf
          simp at hkf
        · have hpp : p0 = p := by
            rw [hp] at hp0
            exact (Except.ok.inj hp0).symm
          subst hpp
          have hnn : n0 = n := by
            rw [hn] at hn0
            exact (Except.ok.inj hn0).symm
          subst hnn
          rcases hcases with ⟨hlt, _⟩ | ⟨_, x, y, ny, hx, hy, hny, hset⟩
          · omega
          · refine ⟨x, y, ny, hx, hy, hny, ?_⟩
            rw [hrespres, hset]
            exact alFind_alSet_self _ _ _
      · intro hcase
        rcases hpos with ⟨_, hsame⟩ | ⟨hkt, p0, n0, hp0, hn0, hcases⟩
        · rw [hrespres, hsame]
        · rcases hcase with hkf | ⟨p, n, hp, hn, hlt⟩
          · rw [hkf] at hkt
            simp at hkt
          · have hpp : p0 = p := by
              rw [hp] at hp0
              exact (Except.ok.inj hp0).symm
            subst hpp
            have hnn : n0 = n := by
              rw [hn] at hn0
              exact (Except.ok.inj hn0).symm
            subst hnn
            rcases hcases with ⟨_, hsame⟩ | ⟨hge, _⟩
            · rw [hrespres, hsame]
            · omega
    · rcases nodeIds_mem hrest he with ⟨i2, hi2, hmem⟩
      have hii : i = i2 := by
        rw [hid] at hi2
        exact Except.ok.inj hi2
      subst hii
      have hji : j ≠ i := fun hh => (List.nodup_cons.1 hnd).1 (hh ▸ hmem)
      have hstep : alFind s1.pos i = alFind s.pos i := by
        rcases hpos with ⟨_, hsame⟩ | ⟨_, p0, n0, _, _, hcases⟩
        · rw [hsame]
        · rcases hcases with ⟨_, hsame⟩ | ⟨_, x, y, ny, _, _, _, hset⟩
          · rw [hsame]
          · rw [hset]
            exact alFind_alSet_ne _ _ _ _ (fun hh => hji hh.symm)
      have hih := ih h2 hrest (List.nodup_cons.1 hnd).2 he
      exact ⟨hih.1, fun hc => (hih.2 hc).trans hstep⟩

theorem jGetD_of_jGet {d : JSON} {k : String} {v : JSON} (dflt : JSON)
    (h : jGet d k = .ok v) : jGetD d k dflt = .ok v := by
  cases d with
  | obj entries =>
    cases hf : entriesFind entries k with
    | some w =>
      have : w = v := by simpa [jGet, hf] using h
      simp [jGetD, hf, this]
    | none => simp [jGet, hf] at h
  | null => simp [jGet] at h
  | bool b => simp [jGet] at h
  | num n => simp [jGet] at h
  | str s => simp [jGet] at h
  | arr xs => simp [jGet] at h

theorem connStep_ok {src ct : String} {s : PState} {c : JSON} {s' : PState}
    (h : connStep src ct s c = .ok s') :
    ∃ tid, jGet c "node" = .ok tid ∧
      s' = { s with graph := s.graph.add_edge (.str src) tid ct } := by
  unfold connStep at h
  cases h1 : jGet c "node" with
  | error e => rw [h1] at h; simp at h
  | ok tid =>
  rw [h1, except_ok_bind, Except.ok.injEq] at h
  exact ⟨tid, rfl, h.symm⟩

theorem processConnList_cons_ok {src ct : String} {s : PState} {c : JSON}
    {cs : List JSON} {s' : PState}
    (h : processConnList src ct s (c :: cs) = .ok s') :
    ∃ s1, connStep src ct s c = .ok s1 ∧ processConnList src ct s1 cs = .ok s' := by
  exact except_bind_ok.1 h

theorem processCats_cons_ok {src : String} {s : PState} {ct : String} {lstJ : JSON}
    {rest : List (String × JSON)} {s' : PState}
    (h : processCats src s ((ct, lstJ) :: rest) = .ok s') :
    ∃ lst s1, jIter lstJ = .ok lst ∧ processConnList src ct s lst = .ok s1 ∧
      processCats src s1 rest = .ok s' := by
  unfold processCats at h
  cases h1 : jIter lstJ with
  | error e => rw [h1] at h; simp at h
  | ok lst =>
  rw [h1, except_ok_bind] at h
  rcases except_bind_ok.1 h with ⟨s1, hs1, hrest⟩
  exact ⟨lst, s1, rfl, hs1, hrest⟩

theorem processConns_cons_ok {s : PState} {src : String} {v : JSON}
    {rest : List (String × JSON)} {s' : PState}
    (h : processConns s ((src, v) :: rest) = .ok s') :
    ∃ cats s1, jItems v = .ok cats ∧ processCats src s cats = .ok s1 ∧
      processConns s1 rest = .ok s' := by
  unfold processConns at h
  cases h1 : jItems v with
  | error e => rw [h1] at h; simp at h
  | ok cats =>
  rw [h1, except_ok_bind] at h
  rcases except_bind_ok.1 h with ⟨s1, hs1, hrest⟩
  exact ⟨cats, s1, rfl, hs1, hrest⟩

theorem connStep_pos {src ct : String} {s : PState} {c : JSON} {s' : PState}
    (h : connStep src ct s c = .ok s') : s'.pos = s.pos := by
  rcases connStep_ok h with ⟨tid, _, rfl⟩
  rfl

theorem processConnList_pos {src ct : String} {s : PState} {lst : List JSON}
    {s' : PState} (h : processConnList src ct s lst = .ok s') : s'.pos = s.pos := by
  induction lst generalizing s with
  | nil => simp only [processConnList, Except.ok.injEq] at h; subst h; rfl
  | cons c cs ih =>
    rcases processConnList_cons_ok h with ⟨s1, h1, h2⟩
    rw [ih h2, connStep_pos h1]

theorem processCats_pos {src : String} {s : PState} {cats : List (String × JSON)}
    {s' : PState} (h : processCats src s cats = .ok s') : s'.pos = s.pos := by
  induction cats generalizing s with
  | nil => simp only [processCats, Except.ok.injEq] at h; subst h; rfl
  | cons p rest ih =>
    obtain ⟨ct, lstJ⟩ := p
    rcases processCats_cons_ok h with ⟨lst, s1, _, h1, h2⟩
    rw [ih h2, processConnList_pos h1]

theorem processConns_pos {s : PState} {entries : List (String × JSON)}
    {s' : PState} (h : processConns s entries = .ok s') : s'.pos = s.pos := by
  induction entries generalizing s with
  | nil => simp only [processConns, Except.ok.injEq] at h; subst h; rfl
  | cons p rest ih =>
    obtain ⟨src, v⟩ := p
    rcases processConns_cons_ok h with ⟨cats, s1, _, h1, h2⟩
    rw [ih h2, processCats_pos h1]

theorem connStep_find_pres {src ct : String} {s : PState} {c : JSON} {s' : PState}
    {j : JSON} {w : Option NodeAttrs}
    (h : connStep src ct s c = .ok s') (hf : alFind s.graph.nodes j = some w) :
    alFind s'.graph.nodes j = some w := by
  rcases connStep_ok h with ⟨tid, _, rfl⟩
  exact add_edge_find_pres _ _ _ hf

theorem processConnList_find_pres {src ct : String} {s : PState} {lst : List JSON}
    {s' : PState} {j : JSON} {w : Option NodeAttrs}
    (h : processConnList src ct s lst = .ok s')
    (hf : alFind s.graph.nodes j = some w) : alFind s'.graph.nodes j = some w := by
  induction lst generalizing s with
  | nil => simp only [processConnList, Except.ok.injEq] at h; subst h; exact hf
  | cons c cs ih =>
    rcases processConnList_cons_ok h with ⟨s1, h1, h2⟩
    exact ih h2 (connStep_find_pres h1 hf)

theorem processCats_find_pres {src : String} {s : PState}
    {cats : List (String × JSON)} {s' : PState} {j : JSON} {w : Option NodeAttrs}
    (h : processCats src s cats = .ok s')
    (hf : alFind s.graph.nodes j = some w) : alFind s'.graph.nodes j = some w := by
  induction cats generalizing s with
  | nil => simp only [processCats, Except.ok.injEq] at h; subst h; exact hf
  | cons p rest ih =>
    obtain ⟨ct, lstJ⟩ := p
    rcases processCats_cons_ok h with ⟨lst, s1, _, h1, h2⟩
    exact ih h2 (processConnList_find_pres h1 hf)

theorem processConns_find_pres {s : PState} {entries : List (String × JSON)}
    {s' : PState} {j : JSON} {w : Option NodeAttrs}
    (h : processConns s entries = .ok s')
    (hf : alFind s.graph.nodes j = some w) : alFind s'.graph.nodes j = some w := by
  induction entries generalizing s with
  | nil => simp only [processConns, Except.ok.injEq] at h; subst h; exact hf
  | cons p rest ih =>
    obtain ⟨src, v⟩ := p
    rcases processConns_cons_ok h with ⟨cats, s1, _, h1, h2⟩
    exact ih h2 (processCats_find_pres h1 hf)

theorem connStep_nodes {src ct : String} {s : PState} {c : JSON} {s' : PState}
    (h : connStep src ct s c = .ok s')
    (href : ∀ tid, jGet c "node" = .ok tid →
      JSON.str src ∈ nodeKeys s.graph ∧ tid ∈ nodeKeys s.graph) :
    s'.graph.nodes = s.graph.nodes := by
  rcases connStep_ok h with ⟨tid, htid, rfl⟩
  rcases href tid htid with ⟨hu, hv⟩
  exact add_edge_nodes_of_mem ct hu hv

theorem processConnList_nodes {src ct : String} {s : PState} {lst : List JSON}
    {s' : PState}
    (h : processConnList src ct s lst = .ok s')
    (hsrc : JSON.str src ∈ nodeKeys s.graph)
    (href : ∀ c ∈ lst, ∀ tid, jGet c "node" = .ok tid → tid ∈ nodeKeys s.graph) :
    s'.graph.nodes = s.graph.nodes := by
  induction lst generalizing s with
  | nil => simp only [processConnList, Except.ok.injEq] at h; subst h; rfl
  | cons c cs ih =>
    rcases processConnList_cons_ok h with ⟨s1, h1, h2⟩
    have hn1 : s1.graph.nodes = s.graph.nodes :=
      connStep_nodes h1 (fun tid htid =>
        ⟨hsrc, href c (List.mem_cons_self _ _) tid htid⟩)
    have hk1 : nodeKeys s1.graph = nodeKeys s.graph := by
      unfold nodeKeys; rw [hn1]
    rw [ih h2 (by rw [hk1]; exact hsrc)
      (fun c' hc' tid htid => by
        rw [hk1]; exact href c' (List.mem_cons_of_mem _ hc') tid htid), hn1]

theorem processCats_nodes {src : String} {s : PState}
    {cats : List (String × JSON)} {s' : PState}
    (h : processCats src s cats = .ok s')
    (hsrc : JSON.str src ∈ nodeKeys s.graph)
    (href : ∀ ct lstJ, (ct, lstJ) ∈ cats → ∀ lst, jIter lstJ = .ok lst →
      ∀ c ∈ lst, ∀ tid, jGet c "node" = .ok tid → tid ∈ nodeKeys s.graph) :
    s'.graph.nodes = s.graph.nodes := by
  induction cats generalizing s with
  | nil => simp only [processCats, Except.ok.injEq] at h; subst h; rfl
  | cons p rest ih =>
    obtain ⟨ct, lstJ⟩ := p
    rcases processCats_cons_ok h with ⟨lst, s1, hiter, h1, h2⟩
    have hn1 : s1.graph.nodes = s.graph.nodes :=
      processConnList_nodes h1 hsrc
        (fun c hc tid htid =>
          href ct lstJ (List.mem_cons_self _ _) lst hiter c hc tid htid)
    have hk1 : nodeKeys s1.graph = nodeKeys s.graph := by
      unfold nodeKeys; rw [hn1]
    rw [ih h2 (by rw [hk1]; exact hsrc)
      (fun ct' lstJ' hmem lst' hiter' c hc tid htid => by
        rw [hk1]
        exact href ct' lstJ' (List.mem_cons_of_mem _ hmem) lst' hiter' c hc tid htid),
      hn1]

theorem processConns_nodes {s : PState} {entries : List (String × JSON)}
    {s' : PState}
    (h : processConns s entries = .ok s')
    (href : ∀ src catsJ, (src, catsJ) ∈ entries →
      JSON.str src ∈ nodeKeys s.graph ∧
      ∀ cats, jItems catsJ = .ok cats →
        ∀ ct lstJ, (ct, lstJ) ∈ cats → ∀ lst, jIter lstJ = .ok lst →
          ∀ c ∈ lst, ∀ tid, jGet c "node" = .ok tid → tid ∈ nodeKeys s.graph) :
    s'.graph.nodes = s.graph.nodes := by
  induction entries generalizing s with
  | nil => simp only [processConns, Except.ok.injEq] at h; subst h; rfl
  | cons p rest ih =>
    obtain ⟨src, v⟩ := p
    rcases processConns_cons_ok h with ⟨cats, s1, hitems, h1, h2⟩
    have hhead := href src v (List.mem_cons_self _ _)
    have hn1 : s1.graph.nodes = s.graph.nodes :=
      processCats_nodes h1 hhead.1
        (fun ct lstJ hmem lst hiter c hc tid htid =>
          hhead.2 cats hitems ct lstJ hmem lst hiter c hc tid htid)
    have hk1 : nodeKeys s1.graph = nodeKeys s.graph := by
      unfold nodeKeys; rw [hn1]
    rw [ih h2 (fun src' catsJ' hmem => by
        rcases href src' catsJ' (List.mem_cons_of_mem _ hmem) with ⟨ha, hb⟩
        refine ⟨by rw [hk1]; exact ha, ?_⟩
        intro cats' hitems' ct' lstJ' hmem' lst' hiter' c hc tid htid
        rw [hk1]
        exact hb cats' hitems' ct' lstJ' hmem' lst' hiter' c hc tid htid),
      hn1]

theorem connStep_pair_pres {src ct : String} {s : PState} {c : JSON} {s' : PState}
    {u v : JSON} {ct0 : String}
    (h : connStep src ct s c = .ok s') (hm : Edge.mk u v ct0 ∈ s.graph.edges) :
    ∃ ct2, Edge.mk u v ct2 ∈ s'.graph.edges := by
  rcases connStep_ok h with ⟨tid, _, rfl⟩
  exact add_edge_pair_pres (JSON.str src) tid ct (e := ⟨u, v, ct0⟩) hm

theorem processConnList_pair_pres {src ct : String} {s : PState} {lst : List JSON}
    {s' : PState} {u v : JSON} {ct0 : String}
    (h : processConnList src ct s lst = .ok s')
    (hm : Edge.mk u v ct0 ∈ s.graph.edges) :
    ∃ ct2, Edge.mk u v ct2 ∈ s'.graph.edges := by
  induction lst generalizing s ct0 with
  | nil =>
    simp only [processConnList, Except.ok.injEq] at h
    subst h
    exact ⟨ct0, hm⟩
  | cons c cs ih =>
    rcases processConnList_cons_ok h with ⟨s1, h1, h2⟩
    rcases connStep_pair_pres h1 hm with ⟨ct1, hm1⟩
    exact ih h2 hm1

theorem processCats_pair_pres {src : String} {s : PState}
    {cats : List (String × JSON)} {s' : PState} {u v : JSON} {ct0 : String}
    (h : processCats src s cats = .ok s')
    (hm : Edge.mk u v ct0 ∈ s.graph.edges) :
    ∃ ct2, Edge.mk u v ct2 ∈ s'.graph.edges := by
  induction cats generalizing s ct0 with
  | nil =>
    simp only [processCats, Except.ok.injEq] at h
    subst h
    exact ⟨ct0, hm⟩
  | cons p rest ih =>
    obtain ⟨ct1, lstJ⟩ := p
    rcases processCats_cons_ok h with ⟨lst, s1, _, h1, h2⟩
    rcases processConnList_pair_pres h1 hm with ⟨ct2, hm1⟩
    exact ih h2 hm1

theorem processConns_pair_pres {s : PState} {entries : List (String × JSON)}
    {s' : PState} {u v : JSON} {ct0 : String}
    (h : processConns s entries = .ok s')
    (hm : Edge.mk u v ct0 ∈ s.graph.edges) :
    ∃ ct2, Edge.mk u v ct2 ∈ s'.graph.edges := by
  induction entries generalizing s ct0 with
  | nil =>
    simp only [processConns, Except.ok.injEq] at h
    subst h
    exact ⟨ct0, hm⟩
  | cons p rest ih =>
    obtain ⟨src, v0⟩ := p
    rcases processConns_cons_ok h with ⟨cats, s1, _, h1, h2⟩
    rcases processCats_pair_pres h1 hm with ⟨ct2, hm1⟩
    exact ih h2 hm1

theorem processConnList_adds {src ct : String} {s : PState} {lst : List JSON}
    {s' : PState} {c : JSON}
    (h : processConnList src ct s lst = .ok s') (hc : c ∈ lst) :
    ∃ tid, jGet c "node" = .ok tid ∧
      ∃ ct2, Edge.mk (.str src) tid ct2 ∈ s'.graph.edges := by
  induction lst generalizing s with
  | nil => simp at hc
  | cons c0 cs ih =>
    rcases processConnList_cons_ok h with ⟨s1, h1, h2⟩
    rcases List.mem_cons.1 hc with he | he
    · subst he
      rcases connStep_ok h1 with ⟨tid, htid, hs1⟩
      refine ⟨tid, htid, ?_⟩
      have hmem : Edge.mk (.str src) tid ct ∈ s1.graph.edges := by
        rw [hs1]
        exact add_edge_mem_self _ _ _ _
      exact processConnList_pair_pres h2 hmem
    · exact ih h2 he

theorem processCats_adds {src : String} {s : PState}
    {cats : List (String × JSON)} {s' : PState} {ct : String} {lstJ : JSON}
    (h : processCats src s cats = .ok s') (hmem : (ct, lstJ) ∈ cats) :
    ∃ lst, jIter lstJ = .ok lst ∧
      ∀ c ∈ lst, ∃ tid, jGet c "node" = .ok tid ∧
        ∃ ct2, Edge.mk (.str src) tid ct2 ∈ s'.graph.edges := by
  induction cats generalizing s with
  | nil => simp at hmem
  | cons p rest ih =>
    obtain ⟨ct1, lstJ1⟩ := p
    rcases processCats_cons_ok h with ⟨lst1, s1, hiter, h1, h2⟩
    rcases List.mem_cons.1 hmem with he | he
    · rw [Prod.mk.injEq] at he
      rcases he with ⟨he1, he2⟩
      subst he1
      subst he2
      refine ⟨lst1, hiter, ?_⟩
      intro c hc
      rcases processConnList_adds h1 hc with ⟨tid, htid, ct2, hm⟩
      rcases processCats_pair_pres h2 hm with ⟨ct3, hm3⟩
      exact ⟨tid, htid, ct3, hm3⟩
    · exact ih h2 he

theorem processConns_adds {s : PState} {entries : List (String × JSON)}
    {s' : PState} {src : String} {catsJ : JSON}
    (h : processConns s entries = .ok s') (hmem : (src, catsJ) ∈ entries) :
    ∃ cats, jItems catsJ = .ok cats ∧
      ∀ ct lstJ, (ct, lstJ) ∈ cats →
        ∃ lst, jIter lstJ = .ok lst ∧
          ∀ c ∈ lst, ∃ tid, jGet c "node" = .ok tid ∧
            ∃ ct2, Edge.mk (.str src) tid ct2 ∈ s'.graph.edges := by
  induction entries generalizing s with
  | nil => simp at hmem
  | cons p rest ih =>
    obtain ⟨src1, catsJ1⟩ := p
    rcases processConns_cons_ok h with ⟨cats1, s1, hitems, h1, h2⟩
    rcases List.mem_cons.1 hmem with he | he
    · rw [Prod.mk.injEq] at he
      rcases he with ⟨he1, he2⟩
      subst he1
      subst he2
      refine ⟨cats1, hitems, ?_⟩
      intro ct lstJ hct
      rcases processCats_adds h1 hct with ⟨lst, hiter, hall⟩
      refine ⟨lst, hiter, ?_⟩
      intro c hc
      rcases hall c hc with ⟨tid, htid, ct2, hm⟩
      rcases processConns_pair_pres h2 hm with ⟨ct3, hm3⟩
      exact ⟨tid, htid, ct3, hm3⟩
    · exact ih h2 he

theorem connStep_sound {src ct : String} {s : PState} {c : JSON} {s' : PState}
    {e' : Edge}
    (h : connStep src ct s c = .ok s') (hm : e' ∈ s'.graph.edges) :
    e' ∈ s.graph.edges ∨
      ∃ tid, jGet c "node" = .ok tid ∧ e' = ⟨.str src, tid, ct⟩ := by
  rcases connStep_ok h with ⟨tid, htid, rfl⟩
  rcases add_edge_sound hm with hin | heq
  · exact Or.inl hin
  · exact Or.inr ⟨tid, htid, heq⟩

theorem processConnList_sound {src ct : String} {s : PState} {lst : List JSON}
    {s' : PState} {e' : Edge}
    (h : processConnList src ct s lst = .ok s') (hm : e' ∈ s'.graph.edges) :
    e' ∈ s.graph.edges ∨
      ∃ c ∈ lst, ∃ tid, jGet c "node" = .ok tid ∧ e' = ⟨.str src, tid, ct⟩ := by
  induction lst generalizing s with
  | nil =>
    simp only [processConnList, Except.ok.injEq] at h
    subst h
    exact Or.inl hm
  | cons c0 cs ih =>
    rcases processConnList_cons_ok h with ⟨s1, h1, h2⟩
    rcases ih h2 with hin | ⟨c, hc, tid, htid, heq⟩
    · rcases connStep_sound h1 hin with hin0 | ⟨tid, htid, heq⟩
      · exact Or.inl hin0
      · exact Or.inr ⟨c0, List.mem_cons_self _ _, tid, htid, heq⟩
    · exact Or.inr ⟨c, List.mem_cons_of_mem _ hc, tid, htid, heq⟩

theorem processCats_sound {src : String} {s : PState}
    {cats : List (String × JSON)} {s' : PState} {e' : Edge}
    (h : processCats src s cats = .ok s') (hm : e' ∈ s'.graph.edges) :
    e' ∈ s.graph.edges ∨
      ∃ ct lstJ, (ct, lstJ) ∈ cats ∧ ∃ lst, jIter lstJ = .ok lst ∧
        ∃ c ∈ lst, ∃ tid, jGet c "node" = .ok tid ∧ e' = ⟨.str src, tid, ct⟩ := by
  induction cats generalizing s with
  | nil =>
    simp only [processCats, Except.ok.injEq] at h
    subst h
    exact Or.inl hm
  | cons p rest ih =>
    obtain ⟨ct1, lstJ1⟩ := p
    rcases processCats_cons_ok h with ⟨lst1, s1, hiter, h1, h2⟩
    rcases ih h2 with hin | ⟨ct, lstJ, hmem, lst, hiter2, hrest⟩
    · rcases processConnList_sound h1 hin with hin0 | ⟨c, hc, tid, htid, heq⟩
      · exact Or.inl hin0
      · exact Or.inr ⟨ct1, lstJ1, List.mem_cons_self _ _, lst1, hiter,
          c, hc, tid, htid, heq⟩
    · exact Or.inr ⟨ct, lstJ, List.mem_cons_of_mem _ hmem, lst, hiter2, hrest⟩

theorem processConns_sound {s : PState} {entries : List (String × JSON)}
    {s' : PState} {e' : Edge}
    (h : processConns s entries = .ok s') (hm : e' ∈ s'.graph.edges) :
    e' ∈ s.graph.edges ∨
      ListedPair entries e'.source e'.target e'.connection_type := by
  induction entries generalizing s with
  | nil =>
    simp only [processConns, Except.ok.injEq] at h
    subst h
    exact Or.inl hm
  | cons p rest ih =>
    obtain ⟨src1, catsJ1⟩ := p
    rcases processConns_cons_ok h with ⟨cats1, s1, hitems, h1, h2⟩
    rcases ih h2 with hin | hl
    · rcases processCats_sound h1 hin with hin0 | ⟨ct, lstJ, hmem, lst, hiter, c, hc, tid, htid, heq⟩
      · exact Or.inl hin0
      · subst heq
        exact Or.inr ⟨src1, catsJ1, cats1, lstJ, lst, c,
          List.mem_cons_self _ _, rfl, hitems, hmem, hiter, hc, htid⟩
    · rcases hl with ⟨src2, catsJ2, cats2, lstJ2, lst2, c2, hmem2, hu, hi2, hc2, hiter2, hcc2, htid2⟩
      exact Or.inr ⟨src2, catsJ2, cats2, lstJ2, lst2, c2,
        List.mem_cons_of_mem _ hmem2, hu, hi2, hc2, hiter2, hcc2, htid2⟩

/-- Deconstruction of a successful `parse_workflow` into its pipeline
stages. -/
theorem parse_workflow_ok {doc : JSON} {s : PState}
    (h : parse_workflow doc = .ok s) :
    ∃ nodesJ nodeList s1 connsJ entries,
      jGetD doc "nodes" (.arr []) = .ok nodesJ ∧
      jIter nodesJ = .ok nodeList ∧
      processNodes ⟨⟨[], []⟩, []⟩ nodeList = .ok s1 ∧
      jGetD doc "connections" (.obj []) = .ok connsJ ∧
      jItems connsJ = .ok entries ∧
      processConns s1 entries = .ok s := by
  unfold parse_workflow at h
  cases h1 : jGetD doc "nodes" (.arr []) with
  | error e => rw [h1] at h; simp at h
  | ok nodesJ =>
  rw [h1, except_ok_bind] at h
  cases h2 : jIter nodesJ with
  | error e => rw [h2] at h; simp at h
  | ok nodeList =>
  rw [h2, except_ok_bind] at h
  cases h3 : processNodes ⟨⟨[], []⟩, []⟩ nodeList with
  | error e => rw [h3] at h; simp at h
  | ok s1 =>
  rw [h3, except_ok_bind] at h
  cases h4 : jGetD doc "connections" (.obj []) with
  | error e => rw [h4] at h; simp at h
  | ok connsJ =>
  rw [h4, except_ok_bind] at h
  cases h5 : jItems connsJ with
  | error e => rw [h5] at h; simp at h
  | ok entries =>
  rw [h5, except_ok_bind] at h
  exact ⟨nodesJ, nodeList, s1, connsJ, entries, rfl, h2, h3, rfl, h5, h⟩

theorem drawNodes_ok_lookup {m : PosMap} {ps : List (JSON × Option NodeAttrs)}
    {nr : List NodeRender} {i : JSON} {a : Option NodeAttrs}
    (h : drawNodes m ps = .ok nr) (hmem : (i, a) ∈ ps) :
    ∃ c, alFind m i = some c := by
  induction ps generalizing nr with
  | nil => simp at hmem
  | cons p rest ih =>
    unfold drawNodes at h
    cases h1 : lookupPos m p.1 with
    | error e => rw [h1] at h; simp at h
    | ok coord =>
    rw [h1, except_ok_bind] at h
    cases h2 : drawNodes m rest with
    | error e => rw [h2] at h; simp at h
    | ok nr2 =>
    rcases List.mem_cons.1 hmem with he | he
    · have : p.1 = i := by rw [← he]
      rw [← this]
      unfold lookupPos at h1
      cases hf : alFind m p.1 with
      | some c => exact ⟨c, rfl⟩
      | none => rw [hf] at h1; simp at h1
    · exact ih h2 he

theorem draw_ok {wfJ : JSON} {g : DiGraph} {pos : PosMap} {d : DrawData}
    (h : draw wfJ g pos = .ok d) :
    ∃ er nr ls title,
      drawEdges (if pos.isEmpty then spring_layout g else pos) g.edges = .ok er ∧
      drawNodes (if pos.isEmpty then spring_layout g else pos) g.nodes = .ok nr ∧
      labelsOf g.nodes = .ok ls ∧
      jGetD wfJ "name" (.str "Untitled") = .ok title ∧
      d = ⟨pos.isEmpty, if pos.isEmpty then spring_layout g else pos, er, nr, ls,
        g.edges.map (fun e => ((e.source, e.target), e.connection_type)), title⟩ := by
  have h2 : (drawEdges (if pos.isEmpty then spring_layout g else pos) g.edges >>= fun er =>
      drawNodes (if pos.isEmpty then spring_layout g else pos) g.nodes >>= fun nr =>
      labelsOf g.nodes >>= fun ls =>
      jGetD wfJ "name" (.str "Untitled") >>= fun title =>
      Except.ok ⟨pos.isEmpty, if pos.isEmpty then spring_layout g else pos, er, nr, ls,
        g.edges.map (fun e => ((e.source, e.target), e.connection_type)), title⟩) = .ok d := h
  rcases except_bind_ok.1 h2 with ⟨er, her, h3⟩
  rcases except_bind_ok.1 h3 with ⟨nr, hnr, h4⟩
  rcases except_bind_ok.1 h4 with ⟨ls, hls, h5⟩
  rcases except_bind_ok.1 h5 with ⟨title, htitle, h6⟩
  rw [Except.ok.injEq] at h6
  exact ⟨er, nr, ls, title, her, hnr, hls, htitle, h6.symm⟩

theorem isEmpty_false_of_ne_nil {α : Type} {l : List α} (h : l ≠ []) :
    l.isEmpty = false := by
  cases l with
  | nil => exact absurd rfl h
  | cons x xs => rfl

theorem draw_not_ok_of_missing {wfJ : JSON} {g : DiGraph} {pos : PosMap}
    {i : JSON} {a : Option NodeAttrs}
    (hmem : (i, a) ∈ g.nodes) (hpos : alFind pos i = none) (hne : pos ≠ []) :
    exceptIsOk (draw wfJ g pos) = false := by
  cases hd : draw wfJ g pos with
  | error e => rfl
  | ok d =>
    rcases draw_ok hd with ⟨er, nr, ls, title, _, hnr, _, _, _⟩
    rw [isEmpty_false_of_ne_nil hne] at hnr
    simp only [Bool.false_eq_true, if_false] at hnr
    rcases drawNodes_ok_lookup hnr hmem with ⟨c, hc⟩
    rw [hpos] at hc
    exact absurd hc (by simp)

theorem visualize_workflow_ok {data : JSON} {out : Option String} {sf : Bool}
    {res : VisOutcome} (h : visualize_workflow data out sf = .ok res) :
    ∃ s d, parse_workflow data = .ok s ∧ draw data s.graph s.pos = .ok d ∧
      res = ⟨if optTruthy out then out else none, sf, d⟩ := by
  unfold visualize_workflow at h
  cases h1 : parse_workflow data with
  | error e => rw [h1] at h; simp at h
  | ok s =>
  rw [h1, except_ok_bind] at h
  cases h2 : draw data s.graph s.pos with
  | error e => rw [h2] at h; simp at h
  | ok d =>
  rw [h2, except_ok_bind, Except.ok.injEq] at h
  exact ⟨s, d, rfl, h2, h.symm⟩

theorem optTruthy_append_png (s : String) :
    optTruthy (some (s ++ "_visualization.png")) = true := by
  have hne : s ++ "_visualization.png" ≠ "" := by
    intro hc
    have h1 := congrArg String.length hc
    rw [String.length_append] at h1
    have h2 : String.length "_visualization.png" = 18 := by decide
    have h3 : String.length "" = 0 := by decide
    rw [h2, h3] at h1
    omega
  simp [optTruthy, hne]

theorem jGet_ok_obj {d : JSON} {k : String} {v : JSON}
    (h : jGet d k = .ok v) : ∃ es, d = .obj es := by
  cases d with
  | obj es => exact ⟨es, rfl⟩
  | null => simp [jGet] at h
  | bool b => simp [jGet] at h
  | num n => simp [jGet] at h
  | str s => simp [jGet] at h
  | arr xs => simp [jGet] at h

theorem jGetD_of_hasKey_false {d : JSON} {k : String} (dflt : JSON)
    {es : List (String × JSON)} (hobj : d = .obj es)
    (h : hasKey d k = false) : jGetD d k dflt = .ok dflt := by
  subst hobj
  cases hf : entriesFind es k with
  | some w => simp [hasKey, hf] at h
  | none => simp [jGetD, hf]

theorem nodeStep_err {r : JSON}
    (hbad : exceptIsOk (jGet r "id") = false ∨ exceptIsOk (jGet r "type") = false) :
    ∀ s, exceptIsOk (nodeStep s r) = false := by
  intro s
  cases hd : nodeStep s r with
  | error e => rfl
  | ok s' =>
    rcases nodeStep_ok hd with ⟨i, t, name, params, hid, ht, _, _, _, _⟩
    rcases hbad with hb | hb
    · rw [hid] at hb
      simp [exceptIsOk] at hb
    · rw [ht] at hb
      simp [exceptIsOk] at hb

theorem processNodes_err {l : List JSON} {r : JSON} (hm : r ∈ l)
    (hbad : exceptIsOk (jGet r "id") = false ∨ exceptIsOk (jGet r "type") = false) :
    ∀ s, exceptIsOk (processNodes s l) = false := by
  induction l with
  | nil => simp at hm
  | cons r0 rs ih =>
    intro s
    rw [processNodes_cons]
    cases hd : nodeStep s r0 with
    | error e => rw [except_error_bind]; rfl
    | ok s1 =>
      rw [except_ok_bind]
      rcases List.mem_cons.1 hm with he | he
      · subst he
        have := nodeStep_err hbad s
        rw [hd] at this
        simp [exceptIsOk] at this
      · exact ih he s1

theorem parse_err_of_bad_node {doc : JSON} {l : List JSON} {r : JSON}
    (hn : jGet doc "nodes" = .ok (.arr l)) (hm : r ∈ l)
    (hbad : exceptIsOk (jGet r "id") = false ∨ exceptIsOk (jGet r "type") = false) :
    exceptIsOk (parse_workflow doc) = false := by
  cases hp : parse_workflow doc with
  | error e => rfl
  | ok s =>
    rcases parse_workflow_ok hp with ⟨nodesJ, nodeList, s1, _, _, h1, h2, h3, _, _, _⟩
    have hnd : jGetD doc "nodes" (.arr []) = .ok (.arr l) := jGetD_of_jGet _ hn
    rw [hnd] at h1
    have : nodesJ = .arr l := (Except.ok.inj h1).symm
    subst this
    have : nodeList = l := by
      simpa [jIter] using h2.symm
    subst this
    have := processNodes_err hm hbad ⟨⟨[], []⟩, []⟩
    rw [h3] at this
    simp [exceptIsOk] at this

/-- C1: on the specification's round-trip document (`c1doc`, which uses
the genuine n8n connection nesting `[[{"node":"2"}]]`), `parse_workflow`
does not build the described graph at all: it raises a TypeError while
evaluating `connection['node']`, because `connection` is the inner *list*
of the n8n format whose extra nesting level the loop does not unwrap. -/
theorem claim_C1 : exceptIsOk (parse_workflow c1doc) = false := by rfl

/-- C2 (counterexample): a document with no `nodes` key does not raise:
`workflow.get('nodes', [])` substitutes the empty list and
`parse_workflow` silently returns the empty graph. -/
theorem claim_C2_counterexample : parse_workflow (.obj []) = .ok ⟨⟨[], []⟩, []⟩ := by
  rfl

/-- C2 (amended): a node record whose `id` or `type` lookup fails makes
`parse_workflow` fail immediately with a lookup error (no partial graph is
returned); a document missing the `nodes` key itself, however, does not
fail — it silently yields a graph with no vertices. -/
theorem claim_C2 (doc : JSON) (l : List JSON) (r : JSON)
    (hn : jGet doc "nodes" = .ok (.arr l)) (hm : r ∈ l)
    (hbad : exceptIsOk (jGet r "id") = false ∨ exceptIsOk (jGet r "type") = false) :
    exceptIsOk (parse_workflow doc) = false :=
  parse_err_of_bad_node hn hm hbad

/-- C2 witness: a concrete document whose only node record lacks `id`. -/
theorem claim_C2_witness :
    exceptIsOk (parse_workflow (.obj [("nodes", .arr [.obj [("type", .str "x")]])])) = false :=
  claim_C2 _ [.obj [("type", .str "x")]] (.obj [("type", .str "x")])
    (by rfl) (by simp) (Or.inl (by rfl))

/-- C3 (counterexample): in `c3doc` the pair (1, 2) is listed under
category `a` and then under category `b`; the built graph holds exactly
one edge for that pair, tagged `b`, so no edge carries the category `a`
of the first entry. -/
theorem claim_C3_counterexample :
    (parse_workflow c3doc).map (fun s => s.graph.edges)
      = .ok [⟨.str "1", .str "2", "b"⟩] ∧ ("a" : String) ≠ "b" :=
  ⟨by rfl, by decide⟩

/-- C3 (amended): for every connection entry and every target in its
list, the built graph contains a directed edge from the source id to the
target's node id; the edge's connection-category attribute equals the
category of one of the document entries listing that (source, target)
pair — when several categories list the same pair only one of them is
retained, so it need not equal the category of each such entry. -/
theorem claim_C3 (doc : JSON) (s : PState) (connsJ : JSON)
    (entries : List (String × JSON))
    (hp : parse_workflow doc = .ok s)
    (hconn : jGetD doc "connections" (.obj []) = .ok connsJ)
    (hitems : jItems connsJ = .ok entries) :
    (∀ src catsJ, (src, catsJ) ∈ entries →
      ∀ cats, jItems catsJ = .ok cats →
        ∀ ct lstJ, (ct, lstJ) ∈ cats →
          ∀ lst, jIter lstJ = .ok lst →
            ∀ c ∈ lst, ∃ tid, jGet c "node" = .ok tid ∧
              ∃ ct2, Edge.mk (.str src) tid ct2 ∈ s.graph.edges)
    ∧ (∀ e ∈ s.graph.edges,
        ListedPair entries e.source e.target e.connection_type) := by
  rcases parse_workflow_ok hp with
    ⟨nodesJ, nodeList, s1, connsJ2, entries2, _, _, h3, h4, h5, h6⟩
  rw [hconn] at h4
  have hc : connsJ = connsJ2 := Except.ok.inj h4
  subst hc
  rw [hitems] at h5
  have he : entries = entries2 := Except.ok.inj h5
  subst he
  have hs1edges : s1.graph.edges = [] := processNodes_edges h3
  constructor
  · intro src catsJ hmem cats hcats ct lstJ hct lst hiter c hc
    rcases processConns_adds h6 hmem with ⟨cats2, hcats2, hall⟩
    rw [hcats] at hcats2
    have : cats = cats2 := Except.ok.inj hcats2
    subst this
    rcases hall ct lstJ hct with ⟨lst2, hiter2, hall2⟩
    rw [hiter] at hiter2
    have : lst = lst2 := Except.ok.inj hiter2
    subst this
    exact hall2 c hc
  · intro e he
    rcases processConns_sound h6 he with hin | hl
    · rw [hs1edges] at hin
      simp at hin
    · exact hl

/-- C3 witness: in `wdoc`, the single connection entry produces the edge
1 → 2 tagged `main`, and that edge is listed by the document. -/
theorem claim_C3_witness :
    Edge.mk (.str "1") (.str "2") "main" ∈ wstate.graph.edges ∧
    ListedPair [("1", .obj [("main", .arr [.obj [("node", .str "2")]])])]
      (.str "1") (.str "2") "main" := by
  have h := claim_C3 wdoc wstate
    (.obj [("1", .obj [("main", .arr [.obj [("node", .str "2")]])])])
    [("1", .obj [("main", .arr [.obj [("node", .str "2")]])])]
    (by rfl) (by rfl) (by rfl)
  constructor
  · rcases h.1 "1" (.obj [("main", .arr [.obj [("node", .str "2")]])]) (by simp)
      [("main", .arr [.obj [("node", .str "2")]])] (by rfl)
      "main" (.arr [.obj [("node", .str "2")]]) (by simp)
      [.obj [("node", .str "2")]] (by rfl)
      (.obj [("node", .str "2")]) (by simp) with ⟨tid, htid, ct2, hmem⟩
    have htid2 : JSON.str "2" = tid := by
      have hh : jGet (.obj [("node", JSON.str "2")]) "node" = .ok (.str "2") := by rfl
      exact Except.ok.inj (hh.symm.trans htid)
    rw [← htid2] at hmem
    have hct : ct2 = "main" := by
      simp [wstate, Edge.mk.injEq] at hmem
      exact hmem
    rw [← hct]
    exact hmem
  · exact h.2 ⟨.str "1", .str "2", "main"⟩ (by simp [wstate])

/-- C4: the labels map that `draw` hands to the label-drawing routine
carries the full 25-character stored label unchanged — the truncation
helper `_get_node_label` (which would render the first 18 characters plus
an ellipsis) is never invoked by `draw`, so the rendered label differs
from the truncated form the claim describes. -/
theorem claim_C4 :
    (visualize_workflow c4doc none false).map (fun o => o.data.labels)
      = .ok [(.str "1", .str "ABCDEFGHIJKLMNOPQRSTUVWXY")] ∧
    ("ABCDEFGHIJKLMNOPQRSTUVWXY" : String).length > 20 ∧
    _get_node_label (some ⟨.str "ABCDEFGHIJKLMNOPQRSTUVWXY",
      "n8n-nodes-base.set", .obj []⟩) = .ok "ABCDEFGHIJKLMNOPQR..." ∧
    JSON.str "ABCDEFGHIJKLMNOPQRSTUVWXY" ≠ JSON.str "ABCDEFGHIJKLMNOPQR..." :=
  ⟨by rfl, by decide, by rfl, by decide⟩

/-- C5: for a document whose nodes parse with pairwise-distinct ids and
whose connections reference only those ids, the built graph has exactly
one vertex per node record, and its key set is exactly the set of node
ids. -/
theorem claim_C5 (doc : JSON) (s : PState) (l ids : List JSON)
    (hp : parse_workflow doc = .ok s)
    (hn : jGet doc "nodes" = .ok (.arr l))
    (hids : nodeIds l = .ok ids)
    (hnd : ids.Nodup)
    (href : ∀ connsJ entries, jGetD doc "connections" (.obj []) = .ok connsJ →
      jItems connsJ = .ok entries →
      ∀ src catsJ, (src, catsJ) ∈ entries →
        JSON.str src ∈ ids ∧
        ∀ cats, jItems catsJ = .ok cats →
          ∀ ct lstJ, (ct, lstJ) ∈ cats →
            ∀ lst, jIter lstJ = .ok lst →
              ∀ c ∈ lst, ∀ tid, jGet c "node" = .ok tid → tid ∈ ids) :
    s.graph.nodes.length = l.length ∧ (∀ k, k ∈ nodeKeys s.graph ↔ k ∈ ids) := by
  rcases parse_workflow_ok hp with
    ⟨nodesJ, nodeList, s1, connsJ, entries, h1, h2, h3, h4, h5, h6⟩
  rw [jGetD_of_jGet _ hn] at h1
  have hnj : JSON.arr l = nodesJ := Except.ok.inj h1
  subst hnj
  have hnl : l = nodeList := by simpa [jIter] using h2
  subst hnl
  have hkeys1 : nodeKeys s1.graph = ids := by
    have hfresh : ∀ i ∈ ids, i ∉ nodeKeys (⟨⟨[], []⟩, []⟩ : PState).graph := by
      intro i _ hc
      simp [nodeKeys] at hc
    have := processNodes_keys h3 hids hfresh hnd
    simpa [nodeKeys] using this
  have hnodes : s.graph.nodes = s1.graph.nodes := by
    refine processConns_nodes h6 ?_
    intro src catsJ hmem
    rcases href connsJ entries h4 h5 src catsJ hmem with ⟨hsrc, hrest⟩
    refine ⟨by rw [hkeys1]; exact hsrc, ?_⟩
    intro cats hcats ct lstJ hct lst hiter c hc tid htid
    rw [hkeys1]
    exact hrest cats hcats ct lstJ hct lst hiter c hc tid htid
  have hkeq : nodeKeys s.graph = ids := by
    unfold nodeKeys at hkeys1 ⊢
    rw [hnodes]
    exact hkeys1
  constructor
  · have hl1 := congrArg List.length hkeq
    unfold nodeKeys at hl1
    rw [List.length_map] at hl1
    rw [hl1]
    exact nodeIds_length hids
  · intro k
    rw [hkeq]

/-- C5 witness: `c10doc` has two node records with distinct ids and no
connections; the built graph has exactly 2 vertices keyed by them. -/
theorem claim_C5_witness :
    c10state.graph.nodes.length = 2 ∧
    (JSON.str "2" ∈ nodeKeys c10state.graph ↔
      JSON.str "2" ∈ [JSON.str "1", JSON.str "2"]) := by
  have h := claim_C5 c10doc c10state
    [.obj [("id", .str "1"), ("type", .str "n8n-nodes-base.start"),
           ("position", .arr [.num 10, .num 20])],
     .obj [("id", .str "2"), ("type", .str "n8n-nodes-base.set")]]
    [.str "1", .str "2"]
    (by rfl) (by rfl) (by rfl) (by decide)
    (by
      intro connsJ entries h1 h2 src catsJ hmem
      have hc1 : jGetD c10doc "connections" (.obj []) = .ok (.obj []) := by rfl
      have hcj : JSON.obj [] = connsJ := Except.ok.inj (hc1.symm.trans h1)
      subst hcj
      have hee : ([] : List (String × JSON)) = entries := Except.ok.inj h2
      subst hee
      simp at hmem)
  exact ⟨h.1, h.2 (.str "2")⟩

/-- C6: a parsed node record (ids pairwise distinct) stores as the label
of its vertex the explicit `name` when one is present, and otherwise the
substring of its `type` after the last dot. -/
theorem claim_C6 (doc : JSON) (s : PState) (l ids : List JSON) (r i : JSON)
    (hp : parse_workflow doc = .ok s)
    (hn : jGet doc "nodes" = .ok (.arr l))
    (hids : nodeIds l = .ok ids) (hnd : ids.Nodup)
    (hm : r ∈ l) (hid : jGet r "id" = .ok i) :
    ∃ t a, jGet r "type" = .ok (.str t) ∧
      alFind s.graph.nodes i = some (some a) ∧
      (hasKey r "name" = false → a.label = .str (lastSegment t)) ∧
      (∀ nm, jGet r "name" = .ok nm → a.label = nm) := by
  rcases parse_workflow_ok hp with
    ⟨nodesJ, nodeList, s1, connsJ, entries, h1, h2, h3, h4, h5, h6⟩
  rw [jGetD_of_jGet _ hn] at h1
  have hnj : JSON.arr l = nodesJ := Except.ok.inj h1
  subst hnj
  have hnl : l = nodeList := by simpa [jIter] using h2
  subst hnl
  rcases processNodes_sets_attr h3 hids hnd hm hid with
    ⟨t, name, params, ht, hname, hparams, hfind⟩
  have hfind2 : alFind s.graph.nodes i = some (some ⟨name, t, params⟩) :=
    processConns_find_pres h6 hfind
  refine ⟨t, ⟨name, t, params⟩, ht, hfind2, ?_, ?_⟩
  · intro hk
    rcases jGet_ok_obj hid with ⟨es, hobj⟩
    have hd := jGetD_of_hasKey_false (.str (lastSegment t)) hobj hk
    exact (Except.ok.inj (hd.symm.trans hname)).symm
  · intro nm hnm
    have hd := jGetD_of_jGet (.str (lastSegment t)) hnm
    exact (Except.ok.inj (hd.symm.trans hname)).symm

/-- C6 witness: node 2 of `c10doc` has no `name`, so its vertex label is
`set`, the segment of `n8n-nodes-base.set` after the last dot. -/
theorem claim_C6_witness :
    ∃ t a, jGet (.obj [("id", .str "2"), ("type", .str "n8n-nodes-base.set")])
        "type" = .ok (.str t) ∧
      alFind c10state.graph.nodes (.str "2") = some (some a) ∧
      (hasKey (.obj [("id", .str "2"), ("type", .str "n8n-nodes-base.set")])
          "name" = false → a.label = .str (lastSegment t)) ∧
      (∀ nm, jGet (.obj [("id", .str "2"), ("type", .str "n8n-nodes-base.set")])
          "name" = .ok nm → a.label = nm) :=
  claim_C6 c10doc c10state
    [.obj [("id", .str "1"), ("type", .str "n8n-nodes-base.start"),
           ("position", .arr [.num 10, .num 20])],
     .obj [("id", .str "2"), ("type", .str "n8n-nodes-base.set")]]
    [.str "1", .str "2"]
    (.obj [("id", .str "2"), ("type", .str "n8n-nodes-base.set")]) (.str "2")
    (by rfl) (by rfl) (by rfl) (by decide) (by simp) (by rfl)

/-- C7: a parsed node record (ids pairwise distinct) with a position list
of length at least 2 stores the coordinate (x, -y) for its id; a record
with no `position` key, or with one of length below 2, stores nothing for
its id. -/
theorem claim_C7 (doc : JSON) (s : PState) (l ids : List JSON) (r i : JSON)
    (hp : parse_workflow doc = .ok s)
    (hn : jGet doc "nodes" = .ok (.arr l))
    (hids : nodeIds l = .ok ids) (hnd : ids.Nodup)
    (hm : r ∈ l) (hid : jGet r "id" = .ok i) :
    (∀ x y restL, jGet r "position" = .ok (.arr (x :: y :: restL)) →
       ∃ ny, jNeg y = .ok ny ∧ alFind s.pos i = some (x, ny)) ∧
    ((hasKey r "position" = false ∨
      (∃ p n, jGet r "position" = .ok p ∧ jLen p = .ok n ∧ n < 2)) →
       alFind s.pos i = none) := by
  rcases parse_workflow_ok hp with
    ⟨nodesJ, nodeList, s1, connsJ, entries, h1, h2, h3, h4, h5, h6⟩
  rw [jGetD_of_jGet _ hn] at h1
  have hnj : JSON.arr l = nodesJ := Except.ok.inj h1
  subst hnj
  have hnl : l = nodeList := by simpa [jIter] using h2
  subst hnl
  have hw := processNodes_sets_pos h3 hids hnd hm hid
  have hpos : s.pos = s1.pos := processConns_pos h6
  constructor
  · intro x y restL hp1
    rcases hw.1 (.arr (x :: y :: restL)) hp1 (x :: y :: restL).length (by rfl)
      (by simp only [List.length_cons]; omega) with
      ⟨x2, y2, ny, hx2, hy2, hny, hfind⟩
    have hxx : x = x2 := by
      have hx : jIndex (.arr (x :: y :: restL)) 0 = .ok x := by rfl
      exact Except.ok.inj (hx.symm.trans hx2)
    have hyy : y = y2 := by
      have hy : jIndex (.arr (x :: y :: restL)) 1 = .ok y := by rfl
      exact Except.ok.inj (hy.symm.trans hy2)
    subst hxx
    subst hyy
    refine ⟨ny, hny, ?_⟩
    rw [hpos, hfind]
  · intro hc
    have := hw.2 hc
    rw [hpos, this]
    rfl

/-- C7 witness: in `c10doc`, node 1 (position `[10, 20]`) gets the stored
coordinate (10, -20) and node 2 (no position) gets none. -/
theorem claim_C7_witness :
    (∃ ny, jNeg (.num 20) = .ok ny ∧
      alFind c10state.pos (.str "1") = some (.num 10, ny)) ∧
    alFind c10state.pos (.str "2") = none :=
  ⟨(claim_C7 c10doc c10state
      [.obj [("id", .str "1"), ("type", .str "n8n-nodes-base.start"),
             ("position", .arr [.num 10, .num 20])],
       .obj [("id", .str "2"), ("type", .str "n8n-nodes-base.set")]]
      [.str "1", .str "2"]
      (.obj [("id", .str "1"), ("type", .str "n8n-nodes-base.start"),
             ("position", .arr [.num 10, .num 20])]) (.str "1")
      (by rfl) (by rfl) (by rfl) (by decide) (by simp) (by rfl)).1
      (.num 10) (.num 20) [] (by rfl),
   (claim_C7 c10doc c10state
      [.obj [("id", .str "1"), ("type", .str "n8n-nodes-base.start"),
             ("position", .arr [.num 10, .num 20])],
       .obj [("id", .str "2"), ("type", .str "n8n-nodes-base.set")]]
      [.str "1", .str "2"]
      (.obj [("id", .str "2"), ("type", .str "n8n-nodes-base.set")]) (.str "2")
      (by rfl) (by rfl) (by rfl) (by decide) (by simp) (by rfl)).2
      (Or.inl (by rfl))⟩

/-- C8: the CLI exits with code 1 printing an error containing the path
(without attempting visualization) when the file does not exist; exits
with code 1 printing `Error visualizing workflow: <message>` when the
visualization raises; and exits with code 0 otherwise. -/
theorem claim_C8 (wf : String) (out : Option String) (ns ex : Bool) (data : JSON) :
    (ex = false →
      cli_main wf out ns ex data
        = ⟨1, ["Error: File '" ++ wf ++ "' not found"], false⟩ ∧
      ∃ pre post, "Error: File '" ++ wf ++ "' not found" = pre ++ wf ++ post) ∧
    (ex = true → ∀ e, visualize_workflow_file wf data out (!ns) = .error e →
      cli_main wf out ns ex data
        = ⟨1, ["Error visualizing workflow: " ++ e], true⟩) ∧
    (ex = true → ∀ res, visualize_workflow_file wf data out (!ns) = .ok res →
      cli_main wf out ns ex data = ⟨0, [], true⟩) := by
  refine ⟨?_, ?_, ?_⟩
  · intro hex
    subst hex
    exact ⟨rfl, "Error: File '", "' not found", rfl⟩
  · intro hex e he
    subst hex
    simp [cli_main, he]
  · intro hex res hres
    subst hex
    simp [cli_main, hres]

/-- C8 witness: the three exit paths at concrete inputs — a missing file,
a successful run on `wdoc`, and a failing run on `c1doc`. -/
theorem claim_C8_witness :
    cli_main "x.json" none false false .null
      = ⟨1, ["Error: File 'x.json' not found"], false⟩ ∧
    cli_main "flow.json" none true true wdoc = ⟨0, [], true⟩ ∧
    cli_main "flow.json" none false true c1doc
      = ⟨1, ["Error visualizing workflow: "
          ++ "TypeError: value does not support string indexing: node"], true⟩ :=
  ⟨((claim_C8 "x.json" none false false .null).1 rfl).1,
   (claim_C8 "flow.json" none true true wdoc).2.2 rfl _ (by rfl),
   (claim_C8 "flow.json" none false true c1doc).2.1 rfl _ (by rfl)⟩

/-- C9: the file-based entry point substitutes the default output name
`<basename-without-extension>_visualization.png` exactly when no (truthy)
output path is given and display is off, and a successful run then saves
to that name; in every other case it passes the output argument through
unchanged; and the data-based entry point never derives a name — with no
output path and display off it saves nothing. -/
theorem claim_C9 (wf : String) (data : JSON) (out : Option String) (sf : Bool) :
    (optTruthy out = false ∧ sf = false →
      visualize_workflow_file wf data out sf
        = visualize_workflow data
            (some (splitext_root (basename wf) ++ "_visualization.png")) sf ∧
      (∀ res, visualize_workflow_file wf data out sf = .ok res →
        res.saved = some (splitext_root (basename wf) ++ "_visualization.png"))) ∧
    (¬(optTruthy out = false ∧ sf = false) →
      visualize_workflow_file wf data out sf = visualize_workflow data out sf) ∧
    (∀ res, visualize_workflow data none false = .ok res → res.saved = none) := by
  refine ⟨?_, ?_, ?_⟩
  · rintro ⟨h1, h2⟩
    subst h2
    constructor
    · simp [visualize_workflow_file, h1]
    · intro res hres
      have hres2 : visualize_workflow data
          (some (splitext_root (basename wf) ++ "_visualization.png")) false
          = .ok res := by
        simpa [visualize_workflow_file, h1] using hres
      rcases visualize_workflow_ok hres2 with ⟨s, d, _, _, hres3⟩
      rw [hres3]
      simp [optTruthy_append_png]
  · intro hne
    have hcond : (!optTruthy out && !sf) = false := by
      cases ho : optTruthy out <;> cases hs : sf <;> simp_all
    simp [visualize_workflow_file, hcond]
  · intro res hres
    rcases visualize_workflow_ok hres with ⟨s, d, _, _, hres3⟩
    rw [hres3]
    rfl

/-- C9 witness: with no output path and display off, `flow.json` runs as
if `-o flow_visualization.png` had been given; with an explicit output
path the argument is passed through unchanged. -/
theorem claim_C9_witness :
    visualize_workflow_file "flow.json" wdoc none false
      = visualize_workflow wdoc (some "flow_visualization.png") false ∧
    visualize_workflow_file "flow.json" wdoc (some "out.png") false
      = visualize_workflow wdoc (some "out.png") false :=
  ⟨((claim_C9 "flow.json" wdoc none false).1 ⟨rfl, rfl⟩).1,
   (claim_C9 "flow.json" wdoc (some "out.png") false).2.1 (by decide)⟩

/-- C10: `draw` selects the spring layout exactly when the stored
position dict is empty; and when one parsed record stores a position
while another record stores none, the position dict is nonempty, the
positionless node has no stored coordinate, and `draw` fails with a
missing-key lookup instead of falling back to the layout algorithm. -/
theorem claim_C10 :
    (∀ (wfJ : JSON) (g : DiGraph) (pos : PosMap) (d : DrawData),
      draw wfJ g pos = .ok d →
        d.usedSpringLayout = pos.isEmpty ∧
        d.layout = (if pos.isEmpty then spring_layout g else pos)) ∧
    (∀ (doc : JSON) (s : PState) (l ids : List JSON) (r1 i1 p1 r2 i2 : JSON),
      parse_workflow doc = .ok s →
      jGet doc "nodes" = .ok (.arr l) →
      nodeIds l = .ok ids → ids.Nodup →
      r1 ∈ l → jGet r1 "id" = .ok i1 →
      jGet r1 "position" = .ok p1 → (∃ n, jLen p1 = .ok n ∧ 2 ≤ n) →
      r2 ∈ l → jGet r2 "id" = .ok i2 → hasKey r2 "position" = false →
      s.pos ≠ [] ∧ alFind s.pos i2 = none ∧
        exceptIsOk (draw doc s.graph s.pos) = false) := by
  constructor
  · intro wfJ g pos d h
    rcases draw_ok h with ⟨er, nr, ls, title, _, _, _, _, hd⟩
    rw [hd]
    exact ⟨rfl, rfl⟩
  · intro doc s l ids r1 i1 p1 r2 i2 hp hn hids hnd hm1 hid1 hp1 hlen hm2 hid2 hk2
    rcases parse_workflow_ok hp with
      ⟨nodesJ, nodeList, s1, connsJ, entries, h1, h2, h3, h4, h5, h6⟩
    rw [jGetD_of_jGet _ hn] at h1
    have hnj : JSON.arr l = nodesJ := Except.ok.inj h1
    subst hnj
    have hnl : l = nodeList := by simpa [jIter] using h2
    subst hnl
    have hpos : s.pos = s1.pos := processConns_pos h6
    rcases hlen with ⟨n, hlenp, h2n⟩
    have hw1 := processNodes_sets_pos h3 hids hnd hm1 hid1
    rcases hw1.1 p1 hp1 n hlenp h2n with ⟨x, y, ny, _, _, _, hfind1⟩
    have hsome : alFind s.pos i1 = some (x, ny) := by
      rw [hpos]
      exact hfind1
    have hne : s.pos ≠ [] := by
      intro hnil
      rw [hnil] at hsome
      simp [alFind] at hsome
    have hw2 := processNodes_sets_pos h3 hids hnd hm2 hid2
    have hnone : alFind s.pos i2 = none := by
      have := hw2.2 (Or.inl hk2)
      rw [hpos, this]
      rfl
    refine ⟨hne, hnone, ?_⟩
    rcases processNodes_sets_attr h3 hids hnd hm2 hid2 with
      ⟨t, name, params, _, _, _, hfind2⟩
    have hfind3 : alFind s.graph.nodes i2 = some (some ⟨name, t, params⟩) :=
      processConns_find_pres h6 hfind2
    exact draw_not_ok_of_missing (alFind_some_mem hfind3) hnone hne

/-- C10 witness: for `c10doc` the stored positions are nonempty, node 2
has none, `draw` fails; and a draw from an empty position dict uses the
spring layout. -/
theorem claim_C10_witness :
    c10state.pos ≠ [] ∧ alFind c10state.pos (.str "2") = none ∧
    exceptIsOk (draw c10doc c10state.graph c10state.pos) = false ∧
    (⟨true, [], [], [], [], [], .str "Untitled"⟩ : DrawData).usedSpringLayout
      = List.isEmpty ([] : PosMap) := by
  have h2 := claim_C10.2 c10doc c10state
    [.obj [("id", .str "1"), ("type", .str "n8n-nodes-base.start"),
           ("position", .arr [.num 10, .num 20])],
     .obj [("id", .str "2"), ("type", .str "n8n-nodes-base.set")]]
    [.str "1", .str "2"]
    (.obj [("id", .str "1"), ("type", .str "n8n-nodes-base.start"),
           ("position", .arr [.num 10, .num 20])]) (.str "1")
    (.arr [.num 10, .num 20])
    (.obj [("id", .str "2"), ("type", .str "n8n-nodes-base.set")]) (.str "2")
    (by rfl) (by rfl) (by rfl) (by decide) (by simp) (by rfl) (by rfl)
    ⟨2, by rfl, by omega⟩ (by simp) (by rfl) (by rfl)
  have h1 := claim_C10.1 (.obj []) ⟨[], []⟩ []
    ⟨true, [], [], [], [], [], .str "Untitled"⟩ (by rfl)
  exact ⟨h2.1, h2.2.1, h2.2.2, h1.1⟩
